import Mathlib

/-!
# TF-IDF line search (`src/search/search.cpp`)

A shallow embedding of the search routine, followed by the properties of its
specification.

Modelling decisions:

* A `std::string_view` is the list of its characters.  `std::isalpha` and
  `std::tolower` are taken in the "C" locale, where they act on ASCII letters only.
* A `std::map` with the comparator `CompareCaseInsensitive` is the list of its
  entries in iteration (comparator) order.  Lookup and insertion go through the
  comparator only, as in the standard library.  `std::map::at` throws on a
  missing key: it returns an `Option`, and so does every function that calls it.
* The subscripts `rows_order[i]`, `row_metric[...]` and `rows_[...]` of the answer
  loop are optional reads as well, so an out-of-range access would surface as
  `none`.
* `long double` arithmetic is a parameter: a linearly ordered carrier `F` (the
  finite values, compared as the code compares them) with the five operations the
  code uses, `Arith F`.  Theorems hold for every such arithmetic unless they name
  the laws they need (`Arith.NonNeg`, `Arith.ZeroLaws`, `Arith.PosLaws`);
  `realArith` is the exact arithmetic of the real numbers and satisfies them all.
* `std::sort`, `std::unique`, `std::stable_sort` and `std::iota` are modelled by
  their contracts.
-/

namespace SearchTfIdf

/-! ## Characters and string views -/

/-- Character buffer denoted by a `std::string_view`. -/
abbrev StringView := List Char

/-- The classifier `std::isalpha` in the "C" locale. -/
def isalpha (sym : Char) : Bool := sym.isAlpha

/-- The mapping `std::tolower` in the "C" locale. -/
def tolower (sym : Char) : Char := sym.toLower

/-! ## Tokenizer -/

/-- Inner loop of `SplitTextWithPredicate`: starting at `right_border`, advance
while the predicate holds.  Returns the accepted characters and the remaining
buffer (which starts at the final `right_border`). -/
def scanRun (predicate : Char → Bool) : List Char → List Char × List Char
  | [] => ([], [])
  | c :: cs =>
    if predicate c then ((c :: (scanRun predicate cs).1), (scanRun predicate cs).2)
    else ([], c :: cs)

/-- Outer loop of `SplitTextWithPredicate`.  The list argument is the buffer
from `left_border` on; the first argument bounds the number of iterations. -/
def splitLoop (predicate : Char → Bool) : Nat → List Char → List StringView
  | 0, _ => []
  | _ + 1, [] => []
  | fuel + 1, c :: cs =>
    if !predicate c then splitLoop predicate fuel cs
    else (c :: (scanRun predicate cs).1) :: splitLoop predicate fuel (scanRun predicate cs).2

/-- The function `SplitTextWithPredicate`: every iteration of the outer loop
moves `left_border` forward, so `text.size()` iterations are enough. -/
def SplitTextWithPredicate (text : StringView) (predicate : Char → Bool) : List StringView :=
  splitLoop predicate text.length text

/-- A view is a maximal run of accepted characters of the buffer: it is non-empty,
all its characters are accepted, and on each side it ends at a rejected character
or at an end of the buffer. -/
def IsMaximalRun (p : Char → Bool) (text part : List Char) : Prop :=
  ∃ before after, text = before ++ part ++ after ∧ part ≠ [] ∧ (∀ c ∈ part, p c = true) ∧
    (∀ c, before.getLast? = some c → p c = false) ∧ (∀ c, after.head? = some c → p c = false)

/-- The views `parts` are, in left-to-right order, exactly the maximal runs of
accepted characters of `text`: the text is a gap of rejected characters, then the
first run (non-empty, accepted characters only), then a remainder that is empty or
starts with a rejected character and whose runs are the remaining views; after the
last run only rejected characters are left. -/
def RunsOf (p : Char → Bool) : List Char → List (List Char) → Prop
  | text, [] => ∀ c ∈ text, p c = false
  | text, part :: parts =>
    ∃ gap rest, text = gap ++ part ++ rest ∧ (∀ c ∈ gap, p c = false) ∧ part ≠ [] ∧
      (∀ c ∈ part, p c = true) ∧ (∀ c, rest.head? = some c → p c = false) ∧
      RunsOf p rest parts

/-! ## Case-insensitive comparator and maps keyed by it -/

/-- The comparator `CompareCaseInsensitive::operator()`: first position where the
lower-cased characters differ decides; otherwise the shorter view is smaller. -/
def CompareCaseInsensitive : StringView → StringView → Bool
  | [], [] => false
  | [], _ :: _ => true
  | _ :: _, [] => false
  | a :: as, b :: bs =>
    if tolower a ≠ tolower b then decide (tolower a < tolower b)
    else CompareCaseInsensitive as bs

/-- Case-folded spelling of a term: every character lower-cased. -/
def lowerKey (w : StringView) : List Char := w.map tolower

/-- Key equivalence induced by the comparator: neither key is smaller. -/
def keyEquiv (a b : StringView) : Bool :=
  !CompareCaseInsensitive a b && !CompareCaseInsensitive b a

/-- A `std::map<std::string_view, V, CompareCaseInsensitive>`: its entries in
iteration order. -/
abbrev CIMap (V : Type) := List (StringView × V)

namespace CIMap

/-- The member `contains`. -/
def contains {V : Type} (m : CIMap V) (key : StringView) : Bool :=
  m.any fun e => keyEquiv e.1 key

/-- The member `at`: `none` stands for the `std::out_of_range` exception. -/
def atKey {V : Type} (m : CIMap V) (key : StringView) : Option V :=
  (m.find? fun e => keyEquiv e.1 key).map Prod.snd

/-- The statement `++m[key]` on a counter map: a missing key is inserted at its
place in comparator order with the value-initialised count `0`, then incremented. -/
def increment : CIMap Nat → StringView → CIMap Nat
  | [], key => [(key, 1)]
  | (k, v) :: rest, key =>
    if keyEquiv k key then (k, v + 1) :: rest
    else if CompareCaseInsensitive key k then (key, 1) :: (k, v) :: rest
    else (k, v) :: increment rest key

/-- The statement `m[key] = value`. -/
def assign {V : Type} : CIMap V → StringView → V → CIMap V
  | [], key, value => [(key, value)]
  | (k, v) :: rest, key, value =>
    if keyEquiv k key then (k, value) :: rest
    else if CompareCaseInsensitive key k then (key, value) :: (k, v) :: rest
    else (k, v) :: assign rest key value

end CIMap

/-- Well-formedness of a map: the entries are in strictly increasing comparator
order (in particular no two keys are equivalent). -/
def KeysSorted {V : Type} (m : CIMap V) : Prop :=
  m.Pairwise fun e₁ e₂ => lowerKey e₁.1 < lowerKey e₂.1

/-- Number of the tokens `words` that equal `term` case-insensitively. -/
def termCount (words : List StringView) (term : StringView) : Nat :=
  words.countP fun w => decide (lowerKey w = lowerKey term)

/-- Whether some token of `words` equals `term` case-insensitively. -/
def hasTerm (words : List StringView) (term : StringView) : Bool :=
  words.any fun w => decide (lowerKey w = lowerKey term)

/-! ## Rows -/

/-- The class `Row`. -/
structure Row where
  /-- Text of the line. -/
  row_ : StringView
  /-- Alphabetic tokens of the line. -/
  words_ : List StringView
  /-- Occurrence count per case-insensitive term. -/
  words_counter_ : CIMap Nat

namespace Row

/-- The constructor `Row::Row`. -/
def construct (row : StringView) : Row :=
  { row_ := row
    words_ := SplitTextWithPredicate row isalpha
    words_counter_ := (SplitTextWithPredicate row isalpha).foldl CIMap.increment [] }

/-- The member `Row::GetUniqueWords`. -/
def GetUniqueWords (r : Row) : CIMap Bool :=
  r.words_.foldl (fun unique_words word => CIMap.assign unique_words word true) []

/-- The member `Row::GetText`. -/
def GetText (r : Row) : StringView := r.row_

/-- The member `Row::IsEmpty`. -/
def IsEmpty (r : Row) : Bool := r.words_.isEmpty

end Row

/-! ## Score arithmetic -/

/-- The `long double` operations used by the scoring code. -/
structure Arith (F : Type) where
  /-- Conversion `static_cast<long double>` of a `size_t` (also the literal `0`). -/
  ofNat : Nat → F
  /-- Division. -/
  div : F → F → F
  /-- Multiplication. -/
  mul : F → F → F
  /-- Addition. -/
  add : F → F → F
  /-- The function `std::log`. -/
  log : F → F

/-- The exact arithmetic of the real numbers. -/
noncomputable def realArith : Arith ℝ where
  ofNat := fun n => (n : ℝ)
  div := fun x y => x / y
  mul := fun x y => x * y
  add := fun x y => x + y
  log := Real.log

/-- Term frequency per the specification: `0` for a term absent from the line,
otherwise occurrences divided by the total token count. -/
def specTf {F : Type} (A : Arith F) (words : List StringView) (term : StringView) : F :=
  if termCount words term = 0 then A.ofNat 0
  else A.div (A.ofNat (termCount words term)) (A.ofNat words.length)

/-- The member `Row::CalculateTf`. -/
def Row.CalculateTf {F : Type} (A : Arith F) (r : Row) (word : StringView) : Option F :=
  if !r.words_counter_.contains word then some (A.ofNat 0)
  else (r.words_counter_.atKey word).map fun c => A.div (A.ofNat c) (A.ofNat r.words_.length)

/-! ## The document -/

/-- The class `Text`. -/
structure Text where
  /-- Surviving rows in text order. -/
  rows_ : List Row
  /-- Number of rows containing each case-insensitive term. -/
  words_counter_ : CIMap Nat

/-- Document frequency per the specification: the number of rows having at least
one token equal to `term` case-insensitively. -/
def docFreq (rows : List Row) (term : StringView) : Nat :=
  rows.countP fun r => hasTerm r.words_ term

/-- Inverse document frequency per the specification: logarithm of the number of
rows over the document frequency of the term. -/
def specIdf {F : Type} (A : Arith F) (rows : List Row) (term : StringView) : F :=
  A.log (A.div (A.ofNat rows.length) (A.ofNat (docFreq rows term)))

/-- Score of a row per the specification: starting from `0`, the sum over the
given terms, in order, of term frequency times inverse document frequency. -/
def specScore {F : Type} (A : Arith F) (rows : List Row) (terms : List StringView)
    (row : Row) : F :=
  terms.foldl (fun acc term => A.add acc (A.mul (specTf A row.words_ term) (specIdf A rows term)))
    (A.ofNat 0)

/-! ## Library algorithms used by the ranker -/

/-- The algorithm `std::sort` on the query words, ordered by `operator<` of
`std::string_view` (lexicographic on characters, a proper initial segment first). -/
def sortWords (words : List StringView) : List StringView :=
  words.insertionSort (· ≤ ·)

/-- Scan of `std::unique`: `last` is the element kept most recently. -/
def uniqueFrom (last : StringView) : List StringView → List StringView
  | [] => []
  | w :: ws => if last = w then uniqueFrom last ws else w :: uniqueFrom w ws

/-- The idiom `v.erase(unique(v.begin(), v.end()), v.end())`: of every run of
equal consecutive elements the first is kept. -/
def unique : List StringView → List StringView
  | [] => []
  | w :: ws => w :: uniqueFrom w ws

/-- The algorithm `std::stable_sort` with a comparator `comp`: elements are put in
comparator order and elements that `comp` does not separate keep their input order. -/
def stable_sort (comp : Nat → Nat → Bool) (order : List Nat) : List Nat :=
  order.insertionSort fun a b => comp b a = false

/-- The algorithm `std::iota` from `0` on a vector of the given size. -/
def iota (size : Nat) : List Nat := List.range size

namespace Text

/-- The member `Text::UpdateCounter`. -/
def UpdateCounter (t : Text) (new_words : CIMap Bool) : Text :=
  { rows_ := t.rows_
    words_counter_ :=
      (new_words.foldl (fun counter e => CIMap.increment counter e.1) t.words_counter_) }

/-- Body of the loop of the constructor `Text::Text`. -/
def addRow (t : Text) (row_str : StringView) : Text :=
  if !(Row.construct row_str).IsEmpty then
    { rows_ := (t.UpdateCounter (Row.construct row_str).GetUniqueWords).rows_ ++ [Row.construct row_str]
      words_counter_ := (t.UpdateCounter (Row.construct row_str).GetUniqueWords).words_counter_ }
  else t

/-- The constructor `Text::Text`. -/
def construct (text : StringView) : Text :=
  (SplitTextWithPredicate text fun sym => sym != '\n').foldl addRow { rows_ := [], words_counter_ := [] }

/-- The member `Text::IsInText`. -/
def IsInText (t : Text) (word : StringView) : Bool := t.words_counter_.contains word

/-- The member `Text::CalculateIdf`. -/
def CalculateIdf {F : Type} (A : Arith F) (t : Text) (word : StringView) : Option F :=
  (t.words_counter_.atKey word).map fun d =>
    A.log (A.div (A.ofNat t.rows_.length) (A.ofNat d))

/-- Well-formedness of a document: its counter map is in comparator order and
holds exactly the document frequencies of its rows. -/
def WellFormed (t : Text) : Prop :=
  KeysSorted t.words_counter_ ∧
    ∀ k, t.words_counter_.atKey k =
      if docFreq t.rows_ k = 0 then none else some (docFreq t.rows_ k)

/-! ### The ranker -/

/-- The deduplicated query words of `GetMostRelevant`. -/
def queryWords (query : StringView) : List StringView :=
  unique (sortWords (SplitTextWithPredicate query isalpha))

/-- The distinct query tokens that occur in the document, in sorted order. -/
def presentTerms (rows : List Row) (query : StringView) : List StringView :=
  (queryWords query).filter fun term => decide (docFreq rows term ≠ 0)

variable {F : Type}

/-- Inner scoring loop of `GetMostRelevant` for one query word: the score of every
row grows by `CalculateTf * CalculateIdf`. -/
def addWordScores (A : Arith F) (t : Text) (query_word : StringView) :
    List Row → List F → Option (List F)
  | row :: rows, m :: row_metric =>
    (row.CalculateTf A query_word).bind fun tf =>
    (t.CalculateIdf A query_word).bind fun idf =>
    (addWordScores A t query_word rows row_metric).map fun rest =>
      A.add m (A.mul tf idf) :: rest
  | _, _ => some []

/-- Outer scoring loop of `GetMostRelevant` over the query words. -/
def scoreWords (A : Arith F) (t : Text) : List StringView → List F → Option (List F)
  | [], row_metric => some row_metric
  | query_word :: rest, row_metric =>
    if !t.IsInText query_word then scoreWords A t rest row_metric
    else (addWordScores A t query_word t.rows_ row_metric).bind fun next =>
      scoreWords A t rest next

/-- The vector `row_metric` of `GetMostRelevant` after the scoring loops. -/
def rowMetric (A : Arith F) (t : Text) (query : StringView) : Option (List F) :=
  scoreWords A t (queryWords query) (List.replicate t.rows_.length (A.ofNat 0))

/-- The subscript `row_metric[idx]` inside the sort comparator, whose arguments are
always positions below `row_metric.size()`. -/
def metricAt (A : Arith F) (row_metric : List F) (idx : Nat) : F :=
  row_metric.getD idx (A.ofNat 0)

/-- The vector `rows_order` of `GetMostRelevant`: row positions stably sorted by
descending score. -/
def rowsOrder [LinearOrder F] (A : Arith F) (row_metric : List F) (size : Nat) : List Nat :=
  stable_sort (fun lhs rhs => decide (metricAt A row_metric rhs < metricAt A row_metric lhs))
    (iota size)

/-- The answer loop of `GetMostRelevant`, from iteration `i`, with `remaining`
iterations left before the bound `min(results_count, rows_.size())`. -/
def answerLoop [LinearOrder F] (A : Arith F) (t : Text) (row_metric : List F) (rows_order : List Nat) :
    Nat → Nat → Option (List StringView)
  | 0, _ => some []
  | remaining + 1, i =>
    rows_order[i]?.bind fun idx =>
    row_metric[idx]?.bind fun m =>
    if m = A.ofNat 0 then some []
    else t.rows_[idx]?.bind fun row =>
      (answerLoop A t row_metric rows_order remaining (i + 1)).map fun rest =>
        row.GetText :: rest

/-- Text of the row at a position of `rows_` (empty outside the vector). -/
def lineAt (t : Text) (idx : Nat) : StringView :=
  (t.rows_[idx]?.map Row.GetText).getD []

/-- Row positions selected by the answer loop: the first
`min(results_count, size)` positions of `rows_order`, cut at the first position
whose score is `0`. -/
def answerIdx [LinearOrder F] (A : Arith F) (row_metric : List F) (size results_count : Nat) :
    List Nat :=
  ((rowsOrder A row_metric size).take (min results_count size)).takeWhile fun idx =>
    decide (metricAt A row_metric idx ≠ A.ofNat 0)

/-- The member `Text::GetMostRelevant`. -/
def GetMostRelevant [LinearOrder F] (A : Arith F) (t : Text) (query : StringView) (results_count : Nat) :
    Option (List StringView) :=
  if t.rows_.isEmpty then some []
  else
    (rowMetric A t query).bind fun row_metric =>
      answerLoop A t row_metric (rowsOrder A row_metric t.rows_.length)
        (min results_count t.rows_.length) 0

end Text

/-! ## Vocabulary of the specification -/

/-- The surviving lines of a text: the rows of its document, in text order. -/
def survivingRows (text : StringView) : List Row := (Text.construct text).rows_

/-- The score of every surviving line, per the specification: the sum over the
distinct query tokens present in the document of term frequency times inverse
document frequency. -/
def scores {F : Type} (A : Arith F) (text query : StringView) : List F :=
  (survivingRows text).map
    (specScore A (survivingRows text) (Text.presentTerms (survivingRows text) query))

/-- The score of the surviving line at position `i`. -/
def scoreAt {F : Type} (A : Arith F) (text query : StringView) (i : Nat) : F :=
  Text.metricAt A (scores A text query) i

/-- The positions, among the surviving lines, of the lines pushed by the answer
loop, in the order they are pushed. -/
def returned {F : Type} [LinearOrder F] (A : Arith F) (text query : StringView)
    (results_count : Nat) : List Nat :=
  Text.answerIdx A (scores A text query) (survivingRows text).length results_count

/-- The number of surviving lines with a strictly positive score. -/
def positiveCount {F : Type} [LinearOrder F] (A : Arith F) (text query : StringView) : Nat :=
  (List.range (survivingRows text).length).countP fun i =>
    decide (A.ofNat 0 < scoreAt A text query i)

/-- Sign laws of the score arithmetic: quotients of counts, logarithms of
ratios that are at least one, and products and sums of non-negative values are
non-negative.  They hold for the real numbers and for IEEE arithmetic. -/
structure Arith.NonNeg {F : Type} [LinearOrder F] (A : Arith F) : Prop where
  /-- A count divided by a positive count is not negative. -/
  zero_le_div : ∀ c n : Nat, 0 < n → A.ofNat 0 ≤ A.div (A.ofNat c) (A.ofNat n)
  /-- The logarithm of a ratio of counts that is at least one is not negative. -/
  zero_le_log : ∀ n d : Nat, 0 < d → d ≤ n → A.ofNat 0 ≤ A.log (A.div (A.ofNat n) (A.ofNat d))
  /-- A product of non-negative values is not negative. -/
  zero_le_mul : ∀ x y : F, A.ofNat 0 ≤ x → A.ofNat 0 ≤ y → A.ofNat 0 ≤ A.mul x y
  /-- A sum of non-negative values is not negative. -/
  zero_le_add : ∀ x y : F, A.ofNat 0 ≤ x → A.ofNat 0 ≤ y → A.ofNat 0 ≤ A.add x y

/-- Zero laws of the score arithmetic: `0` is neutral on the left of a sum, it
absorbs products, and the logarithm of a count divided by itself is `0`.  They
hold for the real numbers and for IEEE arithmetic on finite values. -/
structure Arith.ZeroLaws {F : Type} (A : Arith F) : Prop where
  /-- Adding to `0` changes nothing. -/
  zero_add : ∀ x : F, A.add (A.ofNat 0) x = x
  /-- A product with `0` on the left is `0`. -/
  zero_mul : ∀ x : F, A.mul (A.ofNat 0) x = A.ofNat 0
  /-- A product with `0` on the right is `0`. -/
  mul_zero : ∀ x : F, A.mul x (A.ofNat 0) = A.ofNat 0
  /-- The logarithm of a positive count divided by itself is `0`. -/
  log_div_self : ∀ n : Nat, 0 < n → A.log (A.div (A.ofNat n) (A.ofNat n)) = A.ofNat 0

/-- Strict sign laws of the score arithmetic: a quotient of positive counts, the
logarithm of a ratio of counts above one, a product of positive values, and a sum
of a positive and a non-negative value are positive.  They hold for the real
numbers, and for IEEE arithmetic as long as no quotient rounds to one and no
product underflows. -/
structure Arith.PosLaws {F : Type} [LinearOrder F] (A : Arith F) : Prop where
  /-- A positive count divided by a positive count is positive. -/
  div_pos : ∀ c n : Nat, 0 < c → 0 < n → A.ofNat 0 < A.div (A.ofNat c) (A.ofNat n)
  /-- The logarithm of a ratio of counts above one is positive. -/
  log_pos : ∀ n d : Nat, 0 < d → d < n → A.ofNat 0 < A.log (A.div (A.ofNat n) (A.ofNat d))
  /-- A product of positive values is positive. -/
  mul_pos : ∀ x y : F, A.ofNat 0 < x → A.ofNat 0 < y → A.ofNat 0 < A.mul x y
  /-- A positive value plus a non-negative value is positive. -/
  add_pos_left : ∀ x y : F, A.ofNat 0 < x → A.ofNat 0 ≤ y → A.ofNat 0 < A.add x y
  /-- A non-negative value plus a positive value is positive. -/
  add_pos_right : ∀ x y : F, A.ofNat 0 ≤ x → A.ofNat 0 < y → A.ofNat 0 < A.add x y

/-- The text with every line that lacks an alphabetic character deleted: the
lines are the pieces between newline characters, and the kept ones are joined by
newline characters again. -/
def deleteNonAlphaLines (text : StringView) : StringView :=
  List.intercalate ['\n'] ((text.splitOn '\n').filter fun line => line.any isalpha)

/-- The entry function `Search`. -/
def Search {F : Type} [LinearOrder F] (A : Arith F) (text query : StringView)
    (results_count : Nat) : Option (List StringView) :=
  (Text.construct text).GetMostRelevant A query results_count


/-! ## The tokenizer: fuel and recursion equations -/

theorem scanRun_eq (p : Char → Bool) (l : List Char) :
    scanRun p l = (l.takeWhile p, l.dropWhile p) := by
  induction l with
  | nil => rfl
  | cons c cs ih =>
    by_cases h : p c = true
    · simp [scanRun, h, ih]
    · simp [scanRun, h]

theorem length_dropWhile_le (p : Char → Bool) (l : List Char) :
    (l.dropWhile p).length ≤ l.length := by
  induction l with
  | nil => simp
  | cons c cs ih =>
    by_cases h : p c = true
    · simp only [List.dropWhile_cons, h, if_true, List.length_cons]; omega
    · simp [List.dropWhile_cons, h]

theorem splitLoop_fuel (p : Char → Bool) :
    ∀ (f g : Nat) (l : List Char), l.length ≤ f → l.length ≤ g →
      splitLoop p f l = splitLoop p g l := by
  intro f
  induction f with
  | zero =>
    intro g l hf hg
    have hl : l = [] := List.length_eq_zero.mp (Nat.le_zero.mp hf)
    subst hl
    cases g <;> rfl
  | succ n ih =>
    intro g l hf hg
    cases l with
    | nil => cases g <;> rfl
    | cons c cs =>
      cases g with
      | zero => simp at hg
      | succ m =>
        simp only [List.length_cons, Nat.add_le_add_iff_right] at hf hg
        have hd := length_dropWhile_le p cs
        simp only [splitLoop, scanRun_eq]
        rw [ih m cs hf hg, ih m (cs.dropWhile p) (by omega) (by omega)]

theorem Split_nil (p : Char → Bool) : SplitTextWithPredicate [] p = [] := rfl

theorem Split_cons (p : Char → Bool) (c : Char) (cs : List Char) :
    SplitTextWithPredicate (c :: cs) p =
      if p c = true then (c :: cs.takeWhile p) :: SplitTextWithPredicate (cs.dropWhile p) p
      else SplitTextWithPredicate cs p := by
  have hd := length_dropWhile_le p cs
  unfold SplitTextWithPredicate
  simp only [List.length_cons, splitLoop, scanRun_eq]
  rw [splitLoop_fuel p cs.length (cs.dropWhile p).length (cs.dropWhile p) hd (le_refl _)]
  by_cases h : p c = true <;> simp [h]

/-- Induction along the iterations of the outer loop of the tokenizer. -/
theorem split_induction (p : Char → Bool) (P : List Char → Prop) (hnil : P [])
    (hskip : ∀ c cs, p c = false → P cs → P (c :: cs))
    (hrun : ∀ c cs, p c = true → P (cs.dropWhile p) → P (c :: cs)) : ∀ l, P l := by
  have key : ∀ n (l : List Char), l.length ≤ n → P l := by
    intro n
    induction n with
    | zero =>
      intro l hl
      have hl0 : l = [] := List.length_eq_zero.mp (Nat.le_zero.mp hl)
      subst hl0
      exact hnil
    | succ n ih =>
      intro l hl
      cases l with
      | nil => exact hnil
      | cons c cs =>
        simp only [List.length_cons, Nat.add_le_add_iff_right] at hl
        by_cases hc : p c = true
        · have hd := length_dropWhile_le p cs
          exact hrun c cs hc (ih _ (by omega))
        · exact hskip c cs (by simpa using hc) (ih _ hl)
  exact fun l => key l.length l (le_refl _)

theorem Split_eq_nil_iff (p : Char → Bool) (l : List Char) :
    SplitTextWithPredicate l p = [] ↔ ∀ c ∈ l, p c = false := by
  induction l with
  | nil => simp [Split_nil]
  | cons c cs ih =>
    rw [Split_cons]
    by_cases h : p c = true
    · simp [h]
    · simp [h, ih]

theorem head_dropWhile_rejected (p : Char → Bool) (l : List Char) (c : Char)
    (h : (l.dropWhile p).head? = some c) : p c = false := by
  induction l with
  | nil => simp at h
  | cons d ds ih =>
    by_cases hd : p d = true
    · simp only [List.dropWhile_cons, hd, if_true] at h; exact ih h
    · simp only [List.dropWhile_cons, hd] at h
      simp at h; subst h; simpa using hd

theorem Split_maximal (p : Char → Bool) :
    ∀ text part, part ∈ SplitTextWithPredicate text p → IsMaximalRun p text part := by
  intro text
  induction text using split_induction p with
  | hnil => intro part h; simp [Split_nil] at h
  | hskip c cs hc ih =>
    intro part h
    rw [Split_cons] at h
    simp only [hc, Bool.false_eq_true, if_false] at h
    obtain ⟨before, after, h1, h2, h3, h4, h5⟩ := ih part h
    refine ⟨c :: before, after, by simp [h1], h2, h3, ?_, h5⟩
    intro d hd
    cases before with
    | nil => simp at hd; subst hd; exact hc
    | cons b bs => exact h4 d (by simpa [List.getLast?_cons_cons] using hd)
  | hrun c cs hc ih =>
    intro part h
    rw [Split_cons] at h
    simp only [hc, if_true, List.mem_cons] at h
    rcases h with h | h
    · subst h
      refine ⟨[], cs.dropWhile p, by simp [List.takeWhile_append_dropWhile], by simp, ?_, by simp, ?_⟩
      · intro d hd
        rcases List.mem_cons.mp hd with h | h
        · subst h; exact hc
        · exact (List.mem_takeWhile_imp h)
      · intro d hd; exact head_dropWhile_rejected p cs d hd
    · obtain ⟨before, after, h1, h2, h3, h4, h5⟩ := ih part h
      cases before with
      | nil =>
        exfalso
        cases part with
        | nil => exact h2 rfl
        | cons x xs =>
          have hx : p x = true := h3 x (List.mem_cons_self _ _)
          have : (cs.dropWhile p).head? = some x := by rw [h1]; simp
          have := head_dropWhile_rejected p cs x this
          simp [hx] at this
      | cons b bs =>
        refine ⟨c :: cs.takeWhile p ++ (b :: bs), after, ?_, h2, h3, ?_, h5⟩
        · have := List.takeWhile_append_dropWhile p cs
          rw [h1] at this
          simp only [List.cons_append, List.append_assoc] at this ⊢
          rw [this]
        · intro d hd
          apply h4 d
          rw [← hd]
          rw [show c :: cs.takeWhile p ++ b :: bs = (c :: cs.takeWhile p) ++ (b :: bs) from rfl]
          rw [List.getLast?_append_of_ne_nil _ (by simp)]

/-! ## The comparator -/

theorem lex_cons_cons_iff (a b : Char) (l₁ l₂ : List Char) :
    (a :: l₁) < (b :: l₂) ↔ a < b ∨ (a = b ∧ l₁ < l₂) := by
  constructor
  · intro h
    cases h with
    | cons h => exact Or.inr ⟨rfl, h⟩
    | rel h => exact Or.inl h
  · rintro (h | ⟨rfl, h⟩)
    · exact List.Lex.rel h
    · exact List.Lex.cons h

theorem CompareCaseInsensitive_iff (a b : StringView) :
    CompareCaseInsensitive a b = true ↔ lowerKey a < lowerKey b := by
  induction a generalizing b with
  | nil =>
    cases b with
    | nil => simp [CompareCaseInsensitive, lowerKey]
    | cons y ys => simp [CompareCaseInsensitive, lowerKey, List.nil_lt_cons]
  | cons x xs ih =>
    cases b with
    | nil =>
      simp only [CompareCaseInsensitive, lowerKey, List.map_cons, List.map_nil]
      constructor
      · intro h; cases h
      · intro h; cases h
    | cons y ys =>
      have ih2 := ih ys
      simp only [lowerKey] at ih2
      simp only [CompareCaseInsensitive, lowerKey, List.map_cons, lex_cons_cons_iff]
      by_cases hxy : tolower x = tolower y
      · simp [hxy, ih2]
      · simp only [ne_eq, hxy, not_false_eq_true, if_true, decide_eq_true_eq, false_and, or_false]

theorem keyEquiv_iff (a b : StringView) : keyEquiv a b = true ↔ lowerKey a = lowerKey b := by
  unfold keyEquiv
  have h1 := CompareCaseInsensitive_iff a b
  have h2 := CompareCaseInsensitive_iff b a
  rw [Bool.and_eq_true, Bool.not_eq_true', Bool.not_eq_true']
  constructor
  · rintro ⟨h3, h4⟩
    have n1 : ¬ lowerKey a < lowerKey b := fun h => by simp [h1.mpr h] at h3
    have n2 : ¬ lowerKey b < lowerKey a := fun h => by simp [h2.mpr h] at h4
    exact le_antisymm (not_lt.mp n2) (not_lt.mp n1)
  · intro h
    constructor
    · cases hc : CompareCaseInsensitive a b with
      | false => rfl
      | true => exact absurd (h1.mp hc) (by rw [h]; exact lt_irrefl _)
    · cases hc : CompareCaseInsensitive b a with
      | false => rfl
      | true => exact absurd (h2.mp hc) (by rw [h]; exact lt_irrefl _)

theorem keyEquiv_eq (a b : StringView) : keyEquiv a b = decide (lowerKey a = lowerKey b) := by
  cases h : keyEquiv a b with
  | true => simp [(keyEquiv_iff a b).mp h]
  | false =>
    have : ¬ lowerKey a = lowerKey b := fun e => by simp [(keyEquiv_iff a b).mpr e] at h
    simp [this]

/-! ## Maps keyed by the comparator -/

theorem contains_eq_any {V : Type} (m : CIMap V) (k : StringView) :
    CIMap.contains m k = m.any fun e => decide (lowerKey e.1 = lowerKey k) := by
  unfold CIMap.contains
  congr 1
  funext e
  exact keyEquiv_eq e.1 k

theorem atKey_nil {V : Type} (k : StringView) : CIMap.atKey ([] : CIMap V) k = none := rfl

theorem atKey_cons {V : Type} (e : StringView × V) (m : CIMap V) (k : StringView) :
    CIMap.atKey (e :: m) k = if lowerKey e.1 = lowerKey k then some e.2 else CIMap.atKey m k := by
  unfold CIMap.atKey
  rw [List.find?_cons, keyEquiv_eq]
  by_cases h : lowerKey e.1 = lowerKey k <;> simp [h]

theorem atKey_congr {V : Type} (m : CIMap V) {k k' : StringView}
    (h : lowerKey k = lowerKey k') : CIMap.atKey m k = CIMap.atKey m k' := by
  induction m with
  | nil => rfl
  | cons e m ih => rw [atKey_cons, atKey_cons, ih, h]

theorem contains_congr {V : Type} (m : CIMap V) {k k' : StringView}
    (h : lowerKey k = lowerKey k') : CIMap.contains m k = CIMap.contains m k' := by
  rw [contains_eq_any, contains_eq_any, h]

theorem contains_eq_isSome {V : Type} (m : CIMap V) (k : StringView) :
    CIMap.contains m k = (CIMap.atKey m k).isSome := by
  induction m with
  | nil => rfl
  | cons e m ih =>
    rw [atKey_cons]
    rw [contains_eq_any] at ih ⊢
    rw [List.any_cons, ih]
    by_cases h : lowerKey e.1 = lowerKey k <;> simp [h]

theorem atKey_eq_none_of_lt {V : Type} (m : CIMap V) (k : StringView)
    (h : ∀ e ∈ m, lowerKey k < lowerKey e.1) : CIMap.atKey m k = none := by
  induction m with
  | nil => rfl
  | cons e m ih =>
    rw [atKey_cons, if_neg, ih (fun e' he' => h e' (List.mem_cons_of_mem _ he'))]
    intro he
    have := h e (List.mem_cons_self _ _)
    rw [he] at this
    exact lt_irrefl _ this

theorem mem_increment (m : CIMap Nat) (k : StringView) (e : StringView × Nat)
    (he : e ∈ CIMap.increment m k) : lowerKey e.1 = lowerKey k ∨ ∃ e' ∈ m, e'.1 = e.1 := by
  induction m with
  | nil =>
    simp only [CIMap.increment, List.mem_singleton] at he
    subst he; exact Or.inl rfl
  | cons e0 m ih =>
    obtain ⟨k0, v⟩ := e0
    simp only [CIMap.increment] at he
    split at he
    · rename_i h1
      rcases List.mem_cons.mp he with h | h
      · subst h; exact Or.inl ((keyEquiv_iff _ _).mp h1)
      · exact Or.inr ⟨e, List.mem_cons_of_mem _ h, rfl⟩
    · split at he
      · rcases List.mem_cons.mp he with h | h
        · subst h; exact Or.inl rfl
        · exact Or.inr ⟨e, h, rfl⟩
      · rcases List.mem_cons.mp he with h | h
        · subst h; exact Or.inr ⟨(k0, v), List.mem_cons_self _ _, rfl⟩
        · rcases ih h with h' | ⟨e', he', h'⟩
          · exact Or.inl h'
          · exact Or.inr ⟨e', List.mem_cons_of_mem _ he', h'⟩

theorem increment_sorted (m : CIMap Nat) (k : StringView) (hm : KeysSorted m) :
    KeysSorted (CIMap.increment m k) := by
  induction m with
  | nil => simp [CIMap.increment, KeysSorted]
  | cons e0 m ih =>
    obtain ⟨k0, v⟩ := e0
    unfold KeysSorted at hm ih ⊢
    rw [List.pairwise_cons] at hm
    simp only [CIMap.increment]
    split
    · exact List.pairwise_cons.mpr ⟨hm.1, hm.2⟩
    · rename_i h1
      split
      · rename_i h2
        have hlt := (CompareCaseInsensitive_iff _ _).mp h2
        refine List.pairwise_cons.mpr ⟨?_, List.pairwise_cons.mpr hm⟩
        intro e he
        rcases List.mem_cons.mp he with h | h
        · subst h; exact hlt
        · exact lt_trans hlt (hm.1 e h)
      · rename_i h2
        have hne : lowerKey k0 ≠ lowerKey k := fun h => h1 ((keyEquiv_iff _ _).mpr h)
        have hnlt : ¬ lowerKey k < lowerKey k0 := fun h => h2 ((CompareCaseInsensitive_iff _ _).mpr h)
        have hlt : lowerKey k0 < lowerKey k := lt_of_le_of_ne (not_lt.mp hnlt) hne
        refine List.pairwise_cons.mpr ⟨?_, ih hm.2⟩
        intro e he
        rcases mem_increment m k e he with h | ⟨e', he', h⟩
        · show lowerKey k0 < lowerKey e.1
          rw [h]; exact hlt
        · show lowerKey k0 < lowerKey e.1
          rw [← h]; exact hm.1 e' he'

theorem atKey_increment (m : CIMap Nat) (k k' : StringView) (hm : KeysSorted m) :
    CIMap.atKey (CIMap.increment m k) k' =
      if lowerKey k = lowerKey k' then some ((CIMap.atKey m k').getD 0 + 1)
      else CIMap.atKey m k' := by
  induction m with
  | nil =>
    simp only [CIMap.increment, atKey_cons, atKey_nil]
    simp
  | cons e0 m ih =>
    obtain ⟨k0, v⟩ := e0
    unfold KeysSorted at hm ih
    rw [List.pairwise_cons] at hm
    simp only [CIMap.increment]
    split
    · rename_i h1
      have h1 := (keyEquiv_iff _ _).mp h1
      simp only [atKey_cons]
      by_cases hk : lowerKey k = lowerKey k'
      · have hk0 : lowerKey k0 = lowerKey k' := h1.trans hk
        simp [hk, hk0]
      · have : ¬ lowerKey k0 = lowerKey k' := fun h => hk (h1 ▸ h)
        simp [hk, this]
    · rename_i h1
      split
      · rename_i h2
        have hlt := (CompareCaseInsensitive_iff _ _).mp h2
        rw [atKey_cons]
        by_cases hk : lowerKey k = lowerKey k'
        · have hnone : CIMap.atKey ((k0, v) :: m) k' = none := by
            apply atKey_eq_none_of_lt
            intro e he
            rw [← hk]
            rcases List.mem_cons.mp he with h | h
            · subst h; exact hlt
            · exact lt_trans hlt (hm.1 e h)
          simp [hk, hnone]
        · simp [hk]
      · rename_i h2
        have hne : lowerKey k0 ≠ lowerKey k := fun h => h1 ((keyEquiv_iff _ _).mpr h)
        rw [atKey_cons, atKey_cons, ih hm.2]
        by_cases hk0 : lowerKey k0 = lowerKey k'
        · have : ¬ lowerKey k = lowerKey k' := fun h => hne (hk0.trans h.symm)
          simp [hk0, this]
        · simp [hk0]

theorem mem_assign {V : Type} (m : CIMap V) (k : StringView) (x : V) (e : StringView × V)
    (he : e ∈ CIMap.assign m k x) : lowerKey e.1 = lowerKey k ∨ ∃ e' ∈ m, e'.1 = e.1 := by
  induction m with
  | nil =>
    simp only [CIMap.assign, List.mem_singleton] at he
    subst he; exact Or.inl rfl
  | cons e0 m ih =>
    obtain ⟨k0, v⟩ := e0
    simp only [CIMap.assign] at he
    split at he
    · rename_i h1
      rcases List.mem_cons.mp he with h | h
      · subst h; exact Or.inl ((keyEquiv_iff _ _).mp h1)
      · exact Or.inr ⟨e, List.mem_cons_of_mem _ h, rfl⟩
    · split at he
      · rcases List.mem_cons.mp he with h | h
        · subst h; exact Or.inl rfl
        · exact Or.inr ⟨e, h, rfl⟩
      · rcases List.mem_cons.mp he with h | h
        · subst h; exact Or.inr ⟨(k0, v), List.mem_cons_self _ _, rfl⟩
        · rcases ih h with h' | ⟨e', he', h'⟩
          · exact Or.inl h'
          · exact Or.inr ⟨e', List.mem_cons_of_mem _ he', h'⟩

theorem assign_sorted {V : Type} (m : CIMap V) (k : StringView) (x : V) (hm : KeysSorted m) :
    KeysSorted (CIMap.assign m k x) := by
  induction m with
  | nil => simp [CIMap.assign, KeysSorted]
  | cons e0 m ih =>
    obtain ⟨k0, v⟩ := e0
    unfold KeysSorted at hm ih ⊢
    rw [List.pairwise_cons] at hm
    simp only [CIMap.assign]
    split
    · exact List.pairwise_cons.mpr ⟨hm.1, hm.2⟩
    · rename_i h1
      split
      · rename_i h2
        have hlt := (CompareCaseInsensitive_iff _ _).mp h2
        refine List.pairwise_cons.mpr ⟨?_, List.pairwise_cons.mpr hm⟩
        intro e he
        rcases List.mem_cons.mp he with h | h
        · subst h; exact hlt
        · exact lt_trans hlt (hm.1 e h)
      · rename_i h2
        have hne : lowerKey k0 ≠ lowerKey k := fun h => h1 ((keyEquiv_iff _ _).mpr h)
        have hnlt : ¬ lowerKey k < lowerKey k0 := fun h => h2 ((CompareCaseInsensitive_iff _ _).mpr h)
        have hlt : lowerKey k0 < lowerKey k := lt_of_le_of_ne (not_lt.mp hnlt) hne
        refine List.pairwise_cons.mpr ⟨?_, ih hm.2⟩
        intro e he
        rcases mem_assign m k x e he with h | ⟨e', he', h⟩
        · show lowerKey k0 < lowerKey e.1
          rw [h]; exact hlt
        · show lowerKey k0 < lowerKey e.1
          rw [← h]; exact hm.1 e' he'

theorem atKey_assign {V : Type} (m : CIMap V) (k k' : StringView) (x : V) (hm : KeysSorted m) :
    CIMap.atKey (CIMap.assign m k x) k' =
      if lowerKey k = lowerKey k' then some x else CIMap.atKey m k' := by
  induction m with
  | nil =>
    simp only [CIMap.assign, atKey_cons, atKey_nil]
  | cons e0 m ih =>
    obtain ⟨k0, v⟩ := e0
    unfold KeysSorted at hm ih
    rw [List.pairwise_cons] at hm
    simp only [CIMap.assign]
    split
    · rename_i h1
      have h1 := (keyEquiv_iff _ _).mp h1
      simp only [atKey_cons]
      by_cases hk : lowerKey k = lowerKey k'
      · have hk0 : lowerKey k0 = lowerKey k' := h1.trans hk
        simp [hk, hk0]
      · have : ¬ lowerKey k0 = lowerKey k' := fun h => hk (h1 ▸ h)
        simp [hk, this]
    · rename_i h1
      split
      · rw [atKey_cons]
      · rename_i h2
        have hne : lowerKey k0 ≠ lowerKey k := fun h => h1 ((keyEquiv_iff _ _).mpr h)
        rw [atKey_cons, atKey_cons, ih hm.2]
        by_cases hk0 : lowerKey k0 = lowerKey k'
        · have : ¬ lowerKey k = lowerKey k' := fun h => hne (hk0.trans h.symm)
          simp [hk0, this]
        · simp [hk0]

theorem termCount_nil (k : StringView) : termCount [] k = 0 := rfl

theorem termCount_cons (w : StringView) (ws : List StringView) (k : StringView) :
    termCount (w :: ws) k = termCount ws k + if lowerKey w = lowerKey k then 1 else 0 := by
  unfold termCount
  rw [List.countP_cons]
  simp

theorem hasTerm_cons (w : StringView) (ws : List StringView) (k : StringView) :
    hasTerm (w :: ws) k = (decide (lowerKey w = lowerKey k) || hasTerm ws k) := by
  simp [hasTerm]

theorem hasTerm_iff_termCount (ws : List StringView) (k : StringView) :
    hasTerm ws k = true ↔ termCount ws k ≠ 0 := by
  induction ws with
  | nil => simp [hasTerm, termCount]
  | cons w ws ih =>
    rw [hasTerm_cons, termCount_cons]
    by_cases h : lowerKey w = lowerKey k
    · simp [h]
    · simp [h, ih]

theorem foldl_increment_sorted (ws : List StringView) (m : CIMap Nat) (hm : KeysSorted m) :
    KeysSorted (ws.foldl CIMap.increment m) := by
  induction ws generalizing m with
  | nil => exact hm
  | cons w ws ih => exact ih _ (increment_sorted m w hm)

theorem atKey_foldl_increment (ws : List StringView) (m : CIMap Nat) (hm : KeysSorted m)
    (k : StringView) :
    CIMap.atKey (ws.foldl CIMap.increment m) k =
      if termCount ws k = 0 then CIMap.atKey m k
      else some ((CIMap.atKey m k).getD 0 + termCount ws k) := by
  induction ws generalizing m with
  | nil => simp [termCount_nil]
  | cons w ws ih =>
    rw [List.foldl_cons, ih _ (increment_sorted m w hm), atKey_increment m w k hm, termCount_cons]
    by_cases hw : lowerKey w = lowerKey k
    · by_cases hc : termCount ws k = 0
      · simp [hw, hc]
      · simp [hw, hc]; omega
    · simp [hw]

theorem foldl_assign_sorted (ws : List StringView) (m : CIMap Bool) (hm : KeysSorted m) :
    KeysSorted (ws.foldl (fun u w => CIMap.assign u w true) m) := by
  induction ws generalizing m with
  | nil => exact hm
  | cons w ws ih => exact ih _ (assign_sorted m w true hm)

theorem atKey_foldl_assign (ws : List StringView) (m : CIMap Bool) (hm : KeysSorted m)
    (k : StringView) :
    CIMap.atKey (ws.foldl (fun u w => CIMap.assign u w true) m) k =
      if hasTerm ws k = true then some true else CIMap.atKey m k := by
  induction ws generalizing m with
  | nil => simp [hasTerm]
  | cons w ws ih =>
    rw [List.foldl_cons, ih _ (assign_sorted m w true hm), atKey_assign m w k true hm, hasTerm_cons]
    by_cases hw : lowerKey w = lowerKey k
    · simp [hw]
    · simp [hw]

theorem termCount_keys {V : Type} (m : CIMap V) (hm : KeysSorted m) (k : StringView) :
    termCount (m.map Prod.fst) k = if (CIMap.atKey m k).isSome = true then 1 else 0 := by
  induction m with
  | nil => simp [termCount_nil, atKey_nil]
  | cons e m ih =>
    unfold KeysSorted at hm ih
    rw [List.pairwise_cons] at hm
    rw [List.map_cons, termCount_cons, atKey_cons, ih hm.2]
    by_cases he : lowerKey e.1 = lowerKey k
    · have hnone : CIMap.atKey m k = none := by
        apply atKey_eq_none_of_lt
        intro e' he'
        rw [← he]; exact hm.1 e' he'
      simp [he, hnone]
    · simp [he]

/-! ## Rows and the document -/

theorem Row_counter_sorted (row : StringView) : KeysSorted (Row.construct row).words_counter_ :=
  foldl_increment_sorted _ [] List.Pairwise.nil

theorem Row_atKey (row : StringView) (k : StringView) :
    (Row.construct row).words_counter_.atKey k =
      if termCount (Row.construct row).words_ k = 0 then none
      else some (termCount (Row.construct row).words_ k) := by
  show CIMap.atKey ((SplitTextWithPredicate row isalpha).foldl CIMap.increment []) k = _
  rw [atKey_foldl_increment _ [] List.Pairwise.nil]
  simp [atKey_nil, Row.construct]

theorem unique_sorted (r : Row) : KeysSorted r.GetUniqueWords :=
  foldl_assign_sorted _ [] List.Pairwise.nil

theorem unique_atKey (r : Row) (k : StringView) :
    r.GetUniqueWords.atKey k = if hasTerm r.words_ k = true then some true else none := by
  unfold Row.GetUniqueWords
  rw [atKey_foldl_assign _ [] List.Pairwise.nil]
  simp [atKey_nil]

theorem UpdateCounter_sorted (t : Text) (u : CIMap Bool) (ht : KeysSorted t.words_counter_) :
    KeysSorted (t.UpdateCounter u).words_counter_ := by
  show KeysSorted (u.foldl (fun counter e => CIMap.increment counter e.1) t.words_counter_)
  rw [← List.foldl_map]
  exact foldl_increment_sorted _ _ ht

theorem UpdateCounter_atKey (t : Text) (r : Row) (ht : KeysSorted t.words_counter_)
    (k : StringView) :
    (t.UpdateCounter r.GetUniqueWords).words_counter_.atKey k =
      if hasTerm r.words_ k = true then some ((t.words_counter_.atKey k).getD 0 + 1)
      else t.words_counter_.atKey k := by
  show CIMap.atKey (r.GetUniqueWords.foldl (fun counter e => CIMap.increment counter e.1)
    t.words_counter_) k = _
  rw [← List.foldl_map, atKey_foldl_increment _ _ ht, termCount_keys _ (unique_sorted r),
    unique_atKey]
  by_cases h : hasTerm r.words_ k = true
  · simp [h]
  · simp [h]

theorem docFreq_append (rows : List Row) (r : Row) (k : StringView) :
    docFreq (rows ++ [r]) k = docFreq rows k + if hasTerm r.words_ k = true then 1 else 0 := by
  unfold docFreq
  rw [List.countP_append]
  simp [List.countP_cons]

theorem addRow_wellFormed (t : Text) (row_str : StringView) (ht : t.WellFormed) :
    (t.addRow row_str).WellFormed := by
  unfold Text.addRow
  split
  · refine ⟨UpdateCounter_sorted t _ ht.1, ?_⟩
    intro k
    show ((t.UpdateCounter (Row.construct row_str).GetUniqueWords).words_counter_).atKey k = _
    rw [UpdateCounter_atKey t _ ht.1]
    show _ = if docFreq (t.rows_ ++ [Row.construct row_str]) k = 0 then none
      else some (docFreq (t.rows_ ++ [Row.construct row_str]) k)
    rw [docFreq_append, ht.2 k]
    by_cases h : hasTerm (Row.construct row_str).words_ k = true
    · by_cases hd : docFreq t.rows_ k = 0
      · simp [h, hd]
      · simp [h, hd]
    · simp [h]
  · exact ht

theorem addRow_rows (t : Text) (row_str : StringView) :
    (t.addRow row_str).rows_ =
      t.rows_ ++ (if (Row.construct row_str).IsEmpty = true then [] else [Row.construct row_str]) := by
  unfold Text.addRow
  by_cases h : (Row.construct row_str).IsEmpty = true
  · simp [h]
  · simp [h, Text.UpdateCounter]

theorem foldl_addRow (ls : List StringView) (t : Text) (ht : t.WellFormed) :
    (ls.foldl Text.addRow t).WellFormed ∧
      (ls.foldl Text.addRow t).rows_ =
        t.rows_ ++ (ls.filter fun l => !(Row.construct l).IsEmpty).map Row.construct := by
  induction ls generalizing t with
  | nil => simp [ht]
  | cons l ls ih =>
    obtain ⟨h1, h2⟩ := ih (t.addRow l) (addRow_wellFormed t l ht)
    refine ⟨h1, ?_⟩
    rw [List.foldl_cons, h2, addRow_rows]
    by_cases h : (Row.construct l).IsEmpty = true
    · simp [h, List.filter_cons]
    · simp [h, List.filter_cons]

theorem IsEmpty_construct (l : StringView) :
    (Row.construct l).IsEmpty = !(l.any isalpha) := by
  have h := Split_eq_nil_iff isalpha l
  unfold Row.IsEmpty
  show (SplitTextWithPredicate l isalpha).isEmpty = _
  cases hs : SplitTextWithPredicate l isalpha with
  | nil =>
    have := h.mp hs
    have hany : l.any isalpha = false := by
      rw [List.any_eq_false]; intro c hc; simp [this c hc]
    simp [hany]
  | cons a as =>
    have hne : ¬ (∀ c ∈ l, isalpha c = false) := fun hh => by
      have := h.mpr hh; rw [hs] at this; cases this
    have hany : l.any isalpha = true := by
      by_contra hc
      apply hne
      intro c hcl
      rw [Bool.not_eq_true, List.any_eq_false] at hc
      simpa using hc c hcl
    simp [hany]

/-- The lines of the text that survive in the document: the maximal runs of
non-newline characters with at least one alphabetic character. -/
theorem construct_rows (text : StringView) :
    (Text.construct text).rows_ =
      ((SplitTextWithPredicate text fun sym => sym != '\n').filter fun l => l.any isalpha).map
        Row.construct := by
  have h := (foldl_addRow (SplitTextWithPredicate text fun sym => sym != '\n')
    { rows_ := [], words_counter_ := [] } ⟨List.Pairwise.nil, fun k => by simp [docFreq, atKey_nil]⟩).2
  unfold Text.construct
  rw [h]
  simp only [List.nil_append]
  congr 1
  apply List.filter_congr
  intro l _
  rw [IsEmpty_construct]; simp

theorem construct_wellFormed (text : StringView) : (Text.construct text).WellFormed :=
  (foldl_addRow (SplitTextWithPredicate text fun sym => sym != '\n')
    { rows_ := [], words_counter_ := [] }
    ⟨List.Pairwise.nil, fun k => by simp [docFreq, atKey_nil]⟩).1

/-! ## Scoring -/

theorem CalculateTf_construct {F : Type} (A : Arith F) (l k : StringView) :
    (Row.construct l).CalculateTf A k = some (specTf A (Row.construct l).words_ k) := by
  unfold Row.CalculateTf specTf
  rw [contains_eq_isSome, Row_atKey]
  by_cases h : termCount (Row.construct l).words_ k = 0
  · simp [h]
  · simp [h]

theorem CalculateTf_of_mem {F : Type} (A : Arith F) (text : StringView) (r : Row)
    (hr : r ∈ (Text.construct text).rows_) (k : StringView) :
    r.CalculateTf A k = some (specTf A r.words_ k) := by
  rw [construct_rows] at hr
  obtain ⟨l, _, rfl⟩ := List.mem_map.mp hr
  exact CalculateTf_construct A l k

theorem IsInText_eq (t : Text) (ht : t.WellFormed) (k : StringView) :
    t.IsInText k = decide (docFreq t.rows_ k ≠ 0) := by
  unfold Text.IsInText
  rw [contains_eq_isSome, ht.2 k]
  by_cases h : docFreq t.rows_ k = 0 <;> simp [h]

theorem CalculateIdf_eq {F : Type} (A : Arith F) (t : Text) (ht : t.WellFormed) (k : StringView)
    (hk : t.IsInText k = true) : t.CalculateIdf A k = some (specIdf A t.rows_ k) := by
  rw [IsInText_eq t ht] at hk
  have hk : docFreq t.rows_ k ≠ 0 := by simpa using hk
  unfold Text.CalculateIdf specIdf
  rw [ht.2 k]
  simp [hk]

section
variable {F : Type}

theorem addWordScores_eq (A : Arith F) (t : Text) (qw : StringView) (tf : Row → F) (idf : F)
    (hidf : t.CalculateIdf A qw = some idf) (f : Row → F) :
    ∀ rows : List Row, (∀ r ∈ rows, r.CalculateTf A qw = some (tf r)) →
      Text.addWordScores A t qw rows (rows.map f) =
        some (rows.map fun r => A.add (f r) (A.mul (tf r) idf)) := by
  intro rows
  induction rows with
  | nil => intro _; rfl
  | cons r rs ih =>
    intro h
    have h1 := h r (List.mem_cons_self _ _)
    have h2 := ih (fun r' hr' => h r' (List.mem_cons_of_mem _ hr'))
    simp only [List.map_cons, Text.addWordScores, h1, hidf, h2, Option.some_bind, Option.map_some']

theorem scoreWords_eq (A : Arith F) (t : Text) (ht : t.WellFormed)
    (htf : ∀ r ∈ t.rows_, ∀ k, r.CalculateTf A k = some (specTf A r.words_ k)) :
    ∀ (qws : List StringView) (f : Row → F),
      Text.scoreWords A t qws (t.rows_.map f) =
        some (t.rows_.map fun r =>
          (qws.filter fun term => decide (docFreq t.rows_ term ≠ 0)).foldl
            (fun acc term => A.add acc (A.mul (specTf A r.words_ term) (specIdf A t.rows_ term)))
            (f r)) := by
  intro qws
  induction qws with
  | nil => intro f; simp [Text.scoreWords]
  | cons qw qws ih =>
    intro f
    simp only [Text.scoreWords]
    by_cases hq : t.IsInText qw = true
    · have hidf := CalculateIdf_eq A t ht qw hq
      have hadd := addWordScores_eq A t qw (fun r => specTf A r.words_ qw) _ hidf f t.rows_
        (fun r hr => htf r hr qw)
      have hd : decide (docFreq t.rows_ qw ≠ 0) = true := by rw [← IsInText_eq t ht]; exact hq
      simp only [hq, Bool.not_true, Bool.false_eq_true, if_false, hadd, Option.some_bind]
      rw [ih]
      simp only [List.filter_cons, hd, if_true, List.foldl_cons]
    · have hq : t.IsInText qw = false := by simpa using hq
      have hd : decide (docFreq t.rows_ qw ≠ 0) = false := by rw [← IsInText_eq t ht]; exact hq
      simp only [hq, Bool.not_false, if_true]
      rw [ih]
      simp only [List.filter_cons, hd, Bool.false_eq_true, if_false]

/-- The scoring loops never fail, and the score they leave for each row is the
score of the specification. -/
theorem rowMetric_eq (A : Arith F) (text query : StringView) :
    Text.rowMetric A (Text.construct text) query =
      some ((Text.construct text).rows_.map
        (specScore A (Text.construct text).rows_
          (Text.presentTerms (Text.construct text).rows_ query))) := by
  unfold Text.rowMetric
  have h := scoreWords_eq A (Text.construct text) (construct_wellFormed text)
    (fun r hr k => CalculateTf_of_mem A text r hr k) (Text.queryWords query) (fun _ => A.ofNat 0)
  have hrep : List.replicate (Text.construct text).rows_.length (A.ofNat 0) =
      (Text.construct text).rows_.map (fun _ => A.ofNat 0) := by
    simp [List.map_const']
  rw [hrep, h]
  rfl

end

/-! ## Sorting and the answer loop -/

section
variable {F : Type} [LinearOrder F]

theorem rowsOrder_perm (A : Arith F) (m : List F) (n : Nat) :
    (Text.rowsOrder A m n).Perm (List.range n) :=
  List.perm_insertionSort _ _

theorem mem_rowsOrder (A : Arith F) (m : List F) (n i : Nat) :
    i ∈ Text.rowsOrder A m n ↔ i < n := by
  rw [(rowsOrder_perm A m n).mem_iff, List.mem_range]

theorem rowsOrder_nodup (A : Arith F) (m : List F) (n : Nat) : (Text.rowsOrder A m n).Nodup :=
  (rowsOrder_perm A m n).nodup_iff.mpr (List.nodup_range n)

theorem rowsOrder_length (A : Arith F) (m : List F) (n : Nat) :
    (Text.rowsOrder A m n).length = n := by
  rw [(rowsOrder_perm A m n).length_eq, List.length_range]

/-- The sorted order is descending in score. -/
theorem rowsOrder_sorted (A : Arith F) (m : List F) (n : Nat) :
    (Text.rowsOrder A m n).Pairwise fun a b => Text.metricAt A m b ≤ Text.metricAt A m a := by
  have hs : (Text.rowsOrder A m n).Pairwise
      (fun a b => decide (Text.metricAt A m a < Text.metricAt A m b) = false) := by
    haveI : IsTotal Nat
        (fun a b => decide (Text.metricAt A m a < Text.metricAt A m b) = false) :=
      ⟨fun a b => by
        simp only [decide_eq_false_iff_not, not_lt]
        exact le_total _ _⟩
    haveI : IsTrans Nat
        (fun a b => decide (Text.metricAt A m a < Text.metricAt A m b) = false) :=
      ⟨fun a b c => by
        simp only [decide_eq_false_iff_not, not_lt]
        exact fun h1 h2 => le_trans h2 h1⟩
    exact List.sorted_insertionSort _ _
  exact hs.imp (fun h => by simpa using h)

/-- The sort is stable: positions with equal scores keep their original order. -/
theorem rowsOrder_stable (A : Arith F) (m : List F) (n a b : Nat) (hab : a < b) (hb : b < n)
    (hm : Text.metricAt A m b ≤ Text.metricAt A m a) : [a, b].Sublist (Text.rowsOrder A m n) := by
  apply List.pair_sublist_insertionSort
  · simpa using hm
  · have h1 : [a, b].Sublist (List.range n) := by
      have hsub : ([a, b] : List Nat).Sublist (List.range (b + 1)) := by
        rw [List.range_succ]
        have : ([a] ++ [b] : List Nat).Sublist (List.range b ++ [b]) :=
          List.Sublist.append (List.singleton_sublist.mpr (List.mem_range.mpr hab))
            (List.Sublist.refl _)
        simpa using this
      exact hsub.trans (List.range_sublist.mpr (by omega))
    exact h1

theorem answerLoop_eq (A : Arith F) (t : Text) (m : List F) (order : List Nat)
    (hm : ∀ idx ∈ order, idx < m.length) (hr : ∀ idx ∈ order, idx < t.rows_.length) :
    ∀ (remaining i : Nat), i + remaining ≤ order.length →
      Text.answerLoop A t m order remaining i =
        some ((((order.drop i).take remaining).takeWhile fun idx =>
          decide (Text.metricAt A m idx ≠ A.ofNat 0)).map t.lineAt) := by
  intro remaining
  induction remaining with
  | zero => intro i _; simp [Text.answerLoop]
  | succ r ih =>
    intro i hi
    have hlt : i < order.length := by omega
    have hmem : order[i] ∈ order := List.getElem_mem hlt
    have h1 := hm _ hmem
    have h2 := hr _ hmem
    have hdrop : order.drop i = order[i] :: order.drop (i + 1) := List.drop_eq_getElem_cons hlt
    have hget : Text.metricAt A m order[i] = m[order[i]] := by
      unfold Text.metricAt
      rw [List.getD_eq_getElem?_getD, List.getElem?_eq_getElem h1]; rfl
    simp only [Text.answerLoop, List.getElem?_eq_getElem hlt, List.getElem?_eq_getElem h1,
      List.getElem?_eq_getElem h2, Option.some_bind, hdrop, List.take_succ_cons,
      List.takeWhile_cons, hget]
    by_cases hz : m[order[i]] = A.ofNat 0
    · simp [hz]
    · rw [if_neg hz, ih (i + 1) (by omega)]
      simp [hz, Text.lineAt, List.getElem?_eq_getElem h2]

/-- The ranker never fails; it returns the texts of the selected row positions. -/
theorem Search_eq (A : Arith F) (text query : StringView) (k : Nat) :
    Search A text query k =
      some ((Text.answerIdx A
        ((Text.construct text).rows_.map
          (specScore A (Text.construct text).rows_
            (Text.presentTerms (Text.construct text).rows_ query)))
        (Text.construct text).rows_.length k).map (Text.construct text).lineAt) := by
  unfold Search Text.GetMostRelevant
  by_cases he : (Text.construct text).rows_.isEmpty = true
  · have hnil : (Text.construct text).rows_ = [] := List.isEmpty_iff.mp he
    simp [he, hnil, Text.answerIdx]
  · rw [if_neg he, rowMetric_eq, Option.some_bind]
    rw [answerLoop_eq A _ _ _ (fun idx h => by
        rw [List.length_map]; exact (mem_rowsOrder A _ _ idx).mp h)
      (fun idx h => (mem_rowsOrder A _ _ idx).mp h) _ 0 (by
        rw [rowsOrder_length]; omega)]
    simp [Text.answerIdx]

end

/-! ## The selected positions -/

section
variable {F : Type} [LinearOrder F]

theorem answerIdx_append (A : Arith F) (m : List F) (n k : Nat) :
    ∃ rest, Text.rowsOrder A m n = Text.answerIdx A m n k ++ rest := by
  refine ⟨((Text.rowsOrder A m n).take (min k n)).dropWhile
      (fun idx => decide (Text.metricAt A m idx ≠ A.ofNat 0)) ++
      (Text.rowsOrder A m n).drop (min k n), ?_⟩
  unfold Text.answerIdx
  rw [← List.append_assoc, List.takeWhile_append_dropWhile, List.take_append_drop]

theorem answerIdx_sublist (A : Arith F) (m : List F) (n k : Nat) :
    (Text.answerIdx A m n k).Sublist (Text.rowsOrder A m n) := by
  obtain ⟨rest, h⟩ := answerIdx_append A m n k
  rw [h]
  exact List.sublist_append_left _ _

theorem answerIdx_nodup (A : Arith F) (m : List F) (n k : Nat) :
    (Text.answerIdx A m n k).Nodup :=
  (rowsOrder_nodup A m n).sublist (answerIdx_sublist A m n k)

theorem answerIdx_lt (A : Arith F) (m : List F) (n k i : Nat)
    (hi : i ∈ Text.answerIdx A m n k) : i < n :=
  (mem_rowsOrder A m n i).mp ((answerIdx_sublist A m n k).subset hi)

theorem answerIdx_ne_zero (A : Arith F) (m : List F) (n k i : Nat)
    (hi : i ∈ Text.answerIdx A m n k) : Text.metricAt A m i ≠ A.ofNat 0 := by
  have := List.mem_takeWhile_imp hi
  simpa using this

theorem answerIdx_descending (A : Arith F) (m : List F) (n k : Nat) :
    (Text.answerIdx A m n k).Pairwise
      fun i j => Text.metricAt A m j ≤ Text.metricAt A m i :=
  (rowsOrder_sorted A m n).sublist (answerIdx_sublist A m n k)

theorem answerIdx_top (A : Arith F) (m : List F) (n k i j : Nat)
    (hi : i ∈ Text.answerIdx A m n k) (hj : j < n) (hnj : j ∉ Text.answerIdx A m n k) :
    Text.metricAt A m j ≤ Text.metricAt A m i := by
  obtain ⟨rest, h⟩ := answerIdx_append A m n k
  have hs := rowsOrder_sorted A m n
  rw [h] at hs
  have hjmem : j ∈ Text.rowsOrder A m n := (mem_rowsOrder A m n j).mpr hj
  rw [h, List.mem_append] at hjmem
  rcases hjmem with hjm | hjm
  · exact absurd hjm hnj
  · exact (List.pairwise_append.mp hs).2.2 i hi j hjm

theorem answerIdx_stable (A : Arith F) (m : List F) (n k i j : Nat) (hij : i < j) (hj : j < n)
    (hm : Text.metricAt A m j ≤ Text.metricAt A m i) (hjm : j ∈ Text.answerIdx A m n k) :
    [i, j].Sublist (Text.answerIdx A m n k) := by
  obtain ⟨rest, h⟩ := answerIdx_append A m n k
  have hst := rowsOrder_stable A m n i j hij hj hm
  have hnd := rowsOrder_nodup A m n
  rw [h] at hst hnd
  have hjr : j ∉ rest := fun hr => (List.nodup_append.mp hnd).2.2 hjm hr
  obtain ⟨l₁, l₂, hl, h1, h2⟩ := List.sublist_append_iff.mp hst
  cases l₁ with
  | nil =>
    simp only [List.nil_append] at hl
    subst hl
    exact absurd (h2.subset (by simp)) hjr
  | cons a l₁ =>
    cases l₁ with
    | nil =>
      simp only [List.singleton_append, List.cons.injEq] at hl
      obtain ⟨_, hl⟩ := hl
      subst hl
      exact absurd (h2.subset (by simp)) hjr
    | cons b l₁ =>
      simp only [List.cons_append, List.cons.injEq] at hl
      obtain ⟨ha, hb, hl⟩ := hl
      have hnil : l₁ = [] := by
        have := congrArg List.length hl
        simp at this
        exact List.length_eq_zero.mp (by omega)
      subst ha hb hnil
      exact h1

end

/-! ## Search in the vocabulary of the specification -/

theorem rowMetric_scores {F : Type} (A : Arith F) (text query : StringView) :
    Text.rowMetric A (Text.construct text) query = some (scores A text query) :=
  rowMetric_eq A text query

theorem scoreAt_eq {F : Type} (A : Arith F) (text query : StringView) (i : Nat)
    (hi : i < (survivingRows text).length) :
    scoreAt A text query i =
      specScore A (survivingRows text) (Text.presentTerms (survivingRows text) query)
        ((survivingRows text)[i]) := by
  unfold scoreAt Text.metricAt scores
  rw [List.getD_eq_getElem?_getD, List.getElem?_map, List.getElem?_eq_getElem hi]
  rfl

section
variable {F : Type} [LinearOrder F]

theorem Search_returned (A : Arith F) (text query : StringView) (k : Nat) :
    Search A text query k =
      some ((returned A text query k).map (Text.construct text).lineAt) :=
  Search_eq A text query k

theorem survivingRows_eq (text : StringView) :
    survivingRows text =
      ((SplitTextWithPredicate text fun sym => sym != '\n').filter fun l => l.any isalpha).map
        Row.construct :=
  construct_rows text

theorem lineAt_eq (text : StringView) (i : Nat) (hi : i < (survivingRows text).length) :
    (Text.construct text).lineAt i = ((survivingRows text)[i]).row_ := by
  unfold Text.lineAt
  show (((survivingRows text)[i]?).map Row.GetText).getD [] = _
  rw [List.getElem?_eq_getElem hi]
  rfl

theorem row_of_survivingRows (text : StringView) (r : Row) (hr : r ∈ survivingRows text) :
    r = Row.construct r.row_ ∧ r.row_ ∈ (SplitTextWithPredicate text fun sym => sym != '\n') ∧
      r.row_.any isalpha = true := by
  rw [survivingRows_eq] at hr
  obtain ⟨l, hl, rfl⟩ := List.mem_map.mp hr
  obtain ⟨h1, h2⟩ := List.mem_filter.mp hl
  exact ⟨rfl, h1, h2⟩

end

/-- Lines with the same text have the same score. -/
theorem scoreAt_congr {F : Type} (A : Arith F) (text query : StringView) (i j : Nat)
    (hi : i < (survivingRows text).length) (hj : j < (survivingRows text).length)
    (h : (Text.construct text).lineAt i = (Text.construct text).lineAt j) :
    scoreAt A text query i = scoreAt A text query j := by
  rw [lineAt_eq text i hi, lineAt_eq text j hj] at h
  have h1 := (row_of_survivingRows text _ (List.getElem_mem hi)).1
  have h2 := (row_of_survivingRows text _ (List.getElem_mem hj)).1
  rw [scoreAt_eq A text query i hi, scoreAt_eq A text query j hj, h1, h2, h]


/-! ## Sign of the scores -/

section
variable {F : Type} [LinearOrder F]

theorem specTf_nonneg (A : Arith F) (hA : A.NonNeg) (words : List StringView)
    (term : StringView) : A.ofNat 0 ≤ specTf A words term := by
  unfold specTf
  split
  · exact le_refl _
  · rename_i h
    apply hA.zero_le_div
    have hle : termCount words term ≤ words.length := List.countP_le_length _
    omega

theorem specIdf_nonneg (A : Arith F) (hA : A.NonNeg) (rows : List Row) (term : StringView)
    (h : docFreq rows term ≠ 0) : A.ofNat 0 ≤ specIdf A rows term := by
  unfold specIdf
  apply hA.zero_le_log
  · omega
  · exact List.countP_le_length _

theorem foldl_score_nonneg (A : Arith F) (hA : A.NonNeg) (rows : List Row) (row : Row) :
    ∀ (terms : List StringView) (acc : F), (∀ t ∈ terms, docFreq rows t ≠ 0) →
      A.ofNat 0 ≤ acc →
      A.ofNat 0 ≤ terms.foldl
        (fun acc term => A.add acc (A.mul (specTf A row.words_ term) (specIdf A rows term))) acc := by
  intro terms
  induction terms with
  | nil => intro acc _ h; exact h
  | cons t ts ih =>
    intro acc ht h
    rw [List.foldl_cons]
    apply ih _ (fun t' ht' => ht t' (List.mem_cons_of_mem _ ht'))
    apply hA.zero_le_add _ _ h
    exact hA.zero_le_mul _ _ (specTf_nonneg A hA _ _)
      (specIdf_nonneg A hA _ _ (ht t (List.mem_cons_self _ _)))

/-- Every score is non-negative. -/
theorem scoreAt_nonneg (A : Arith F) (hA : A.NonNeg) (text query : StringView) (i : Nat) :
    A.ofNat 0 ≤ scoreAt A text query i := by
  by_cases hi : i < (survivingRows text).length
  · rw [scoreAt_eq A text query i hi]
    unfold specScore
    apply foldl_score_nonneg A hA _ _ _ _ _ (le_refl _)
    intro t ht
    have := (List.mem_filter.mp ht).2
    simpa using this
  · unfold scoreAt Text.metricAt
    rw [List.getD_eq_getElem?_getD, List.getElem?_eq_none]
    · exact le_refl _
    · unfold scores; rw [List.length_map]; omega

theorem takeWhile_eq_filter_of_sorted (g : Nat → F) (z : F) :
    ∀ l : List Nat, l.Pairwise (fun a b => g b ≤ g a) → (∀ i ∈ l, z ≤ g i) →
      l.takeWhile (fun i => decide (g i ≠ z)) = l.filter (fun i => decide (z < g i)) := by
  intro l
  induction l with
  | nil => intro _ _; rfl
  | cons a l ih =>
    intro hs hz
    rw [List.pairwise_cons] at hs
    have hrest := ih hs.2 (fun i hi => hz i (List.mem_cons_of_mem _ hi))
    by_cases ha : g a = z
    · have hfil : l.filter (fun i => decide (z < g i)) = [] := by
        rw [List.filter_eq_nil_iff]
        intro b hb
        have h1 := hs.1 b hb
        rw [ha] at h1
        simpa using h1
      simp [List.takeWhile_cons, List.filter_cons, ha, hfil]
    · have hlt : z < g a := lt_of_le_of_ne (hz a (List.mem_cons_self _ _)) (Ne.symm ha)
      rw [List.takeWhile_cons, List.filter_cons, hrest]
      simp [ha, hlt]

theorem returned_eq_take_filter (A : Arith F) (hA : A.NonNeg) (text query : StringView)
    (k : Nat) :
    returned A text query k =
      ((Text.rowsOrder A (scores A text query) (survivingRows text).length).filter
        fun i => decide (A.ofNat 0 < scoreAt A text query i)).take
          (min k (survivingRows text).length) := by
  unfold returned Text.answerIdx
  rw [← List.take_takeWhile]
  congr 1
  exact takeWhile_eq_filter_of_sorted (fun i => scoreAt A text query i) (A.ofNat 0) _
    (rowsOrder_sorted A _ _) (fun i _ => scoreAt_nonneg A hA text query i)

theorem length_filter_rowsOrder (A : Arith F) (text query : StringView) :
    ((Text.rowsOrder A (scores A text query) (survivingRows text).length).filter
        fun i => decide (A.ofNat 0 < scoreAt A text query i)).length =
      positiveCount A text query := by
  unfold positiveCount
  rw [← List.countP_eq_length_filter]
  exact (rowsOrder_perm A _ _).countP_eq _

theorem positiveCount_le (A : Arith F) (text query : StringView) :
    positiveCount A text query ≤ (survivingRows text).length := by
  unfold positiveCount
  have := List.countP_le_length (l := List.range (survivingRows text).length)
    (fun i => decide (A.ofNat 0 < scoreAt A text query i))
  simpa using this

theorem returned_length (A : Arith F) (hA : A.NonNeg) (text query : StringView) (k : Nat) :
    (returned A text query k).length = min k (positiveCount A text query) := by
  rw [returned_eq_take_filter A hA, List.length_take, length_filter_rowsOrder]
  have := positiveCount_le A text query
  omega

theorem mem_returned_of_le (A : Arith F) (hA : A.NonNeg) (text query : StringView) (k : Nat)
    (hk : positiveCount A text query ≤ k) (i : Nat) :
    i ∈ returned A text query k ↔
      i < (survivingRows text).length ∧ A.ofNat 0 < scoreAt A text query i := by
  rw [returned_eq_take_filter A hA, List.take_of_length_le, List.mem_filter, mem_rowsOrder]
  · simp
  · rw [length_filter_rowsOrder]
    have := positiveCount_le A text query
    omega

end

theorem realArith_nonNeg : realArith.NonNeg where
  zero_le_div := fun c n _ => by
    simp only [realArith, Nat.cast_zero]
    positivity
  zero_le_log := fun n d hd hdn => by
    simp only [realArith, Nat.cast_zero]
    apply Real.log_nonneg
    rw [le_div_iff₀ (by exact_mod_cast hd)]
    rw [one_mul]
    exact_mod_cast hdn
  zero_le_mul := fun x y hx hy => by
    simp only [realArith, Nat.cast_zero] at hx hy ⊢
    exact mul_nonneg hx hy
  zero_le_add := fun x y hx hy => by
    simp only [realArith, Nat.cast_zero] at hx hy ⊢
    exact add_nonneg hx hy

/-! ## The example scenario of the specification -/

theorem catdog_scores {F : Type} (A : Arith F) :
    scores A "cat dog\ncat cat\ndog dog dog".toList "cat".toList =
      [A.add (A.ofNat 0)
          (A.mul (A.div (A.ofNat 1) (A.ofNat 2)) (A.log (A.div (A.ofNat 3) (A.ofNat 2)))),
        A.add (A.ofNat 0)
          (A.mul (A.div (A.ofNat 2) (A.ofNat 2)) (A.log (A.div (A.ofNat 3) (A.ofNat 2)))),
        A.add (A.ofNat 0) (A.mul (A.ofNat 0) (A.log (A.div (A.ofNat 3) (A.ofNat 2))))] := by
  rfl

theorem catdog_lines :
    (survivingRows "cat dog\ncat cat\ndog dog dog".toList).length = 3 ∧
      (Text.construct "cat dog\ncat cat\ndog dog dog".toList).lineAt 0 = "cat dog".toList ∧
      (Text.construct "cat dog\ncat cat\ndog dog dog".toList).lineAt 1 = "cat cat".toList ∧
      (Text.construct "cat dog\ncat cat\ndog dog dog".toList).lineAt 2 = "dog dog dog".toList := by
  refine ⟨by rfl, by rfl, by rfl, by rfl⟩

theorem order_of_three {F : Type} [LinearOrder F] (A : Arith F) (x0 x1 x2 : F) (h01 : x0 < x1)
    (h20 : x2 ≤ x0) : Text.rowsOrder A [x0, x1, x2] 3 = [1, 0, 2] := by
  have e0 : Text.metricAt A [x0, x1, x2] 0 = x0 := rfl
  have e1 : Text.metricAt A [x0, x1, x2] 1 = x1 := rfl
  have e2 : Text.metricAt A [x0, x1, x2] 2 = x2 := rfl
  have n1 : ¬ x1 < x2 := not_lt.mpr (le_trans h20 (le_of_lt h01))
  have n2 : ¬ x0 < x2 := not_lt.mpr h20
  have n3 : ¬ x1 ≤ x0 := not_le.mpr h01
  simp [Text.rowsOrder, stable_sort, iota, List.range, List.range.loop, List.insertionSort,
    List.orderedInsert, e0, e1, e2, n1, n2, n3, h20]

/-- In the example scenario the rows are selected in the order `1, 0` for every
bound of at least two, whenever the arithmetic gives `0 = s₂ < s₀ < s₁`. -/
theorem catdog_returned {F : Type} [LinearOrder F] (A : Arith F) (k : Nat) (hk : 2 ≤ k)
    (h01 : scoreAt A "cat dog\ncat cat\ndog dog dog".toList "cat".toList 0 <
      scoreAt A "cat dog\ncat cat\ndog dog dog".toList "cat".toList 1)
    (hz : A.ofNat 0 < scoreAt A "cat dog\ncat cat\ndog dog dog".toList "cat".toList 0)
    (h2 : scoreAt A "cat dog\ncat cat\ndog dog dog".toList "cat".toList 2 = A.ofNat 0) :
    returned A "cat dog\ncat cat\ndog dog dog".toList "cat".toList k = [1, 0] := by
  unfold scoreAt at h01 hz h2
  unfold returned Text.answerIdx
  rw [catdog_lines.1]
  rw [catdog_scores] at h01 hz h2 ⊢
  generalize A.add (A.ofNat 0)
    (A.mul (A.div (A.ofNat 1) (A.ofNat 2)) (A.log (A.div (A.ofNat 3) (A.ofNat 2)))) = x0
    at h01 hz h2 ⊢
  generalize A.add (A.ofNat 0)
    (A.mul (A.div (A.ofNat 2) (A.ofNat 2)) (A.log (A.div (A.ofNat 3) (A.ofNat 2)))) = x1
    at h01 hz h2 ⊢
  generalize A.add (A.ofNat 0) (A.mul (A.ofNat 0) (A.log (A.div (A.ofNat 3) (A.ofNat 2)))) = x2
    at h01 hz h2 ⊢
  have e0 : Text.metricAt A [x0, x1, x2] 0 = x0 := rfl
  have e1 : Text.metricAt A [x0, x1, x2] 1 = x1 := rfl
  have e2 : Text.metricAt A [x0, x1, x2] 2 = x2 := rfl
  rw [e0, e1] at h01
  rw [e0] at hz
  rw [e2] at h2
  rw [order_of_three A x0 x1 x2 h01 (by rw [h2]; exact le_of_lt hz)]
  have z0 : decide (Text.metricAt A [x0, x1, x2] 0 ≠ A.ofNat 0) = true := by
    rw [e0]; exact decide_eq_true (ne_of_gt hz)
  have z1 : decide (Text.metricAt A [x0, x1, x2] 1 ≠ A.ofNat 0) = true := by
    rw [e1]; exact decide_eq_true (ne_of_gt (lt_trans hz h01))
  have z2 : decide (Text.metricAt A [x0, x1, x2] 2 ≠ A.ofNat 0) = false := by
    rw [e2]; exact decide_eq_false (not_not.mpr h2)
  have hmin : min k 3 = 2 ∨ min k 3 = 3 := by omega
  rcases hmin with hm | hm
  · rw [hm]
    show List.takeWhile _ [1, 0] = [1, 0]
    rw [List.takeWhile_cons, z1, List.takeWhile_cons, z0]
    rfl
  · rw [hm]
    show List.takeWhile _ [1, 0, 2] = [1, 0]
    rw [List.takeWhile_cons, z1, List.takeWhile_cons, z0, List.takeWhile_cons, z2]
    rfl

theorem catdog_real_scores :
    scoreAt realArith "cat dog\ncat cat\ndog dog dog".toList "cat".toList 0 <
        scoreAt realArith "cat dog\ncat cat\ndog dog dog".toList "cat".toList 1 ∧
      realArith.ofNat 0 < scoreAt realArith "cat dog\ncat cat\ndog dog dog".toList "cat".toList 0 ∧
      scoreAt realArith "cat dog\ncat cat\ndog dog dog".toList "cat".toList 2 = realArith.ofNat 0 := by
  have hlog : (0:ℝ) < Real.log (3 / 2) := Real.log_pos (by norm_num)
  unfold scoreAt
  rw [catdog_scores]
  refine ⟨?_, ?_, ?_⟩
  · show realArith.add _ _ < realArith.add _ _
    simp only [realArith]; norm_num; linarith
  · show realArith.ofNat 0 < realArith.add _ _
    simp only [realArith]; norm_num; linarith
  · show realArith.add _ _ = realArith.ofNat 0
    simp only [realArith]; norm_num

/-! ## Claims on the ranking -/

/-- C1: the lines returned by `Search` are the top-scoring ones in descending
relevance order.  For every arithmetic, text, query and bound: the scoring loops
leave in `row_metric` the score of the specification (sum over the distinct query
tokens present in the document of term frequency times `log (|lines| / doc_freq)`),
`Search` returns the texts of the selected positions, the scores along the selected
positions are non-increasing, and every surviving line that is not selected scores
at most as much as every selected one.  In the example scenario
`Search("cat dog\ncat cat\ndog dog dog", "cat", 2) = ["cat cat", "cat dog"]`, over
the real numbers and in every arithmetic that orders the three scores as the
specification computes them (`0 = s₂ < s₀ < s₁`). -/
theorem C1_top_scoring_descending :
    (∀ (F : Type) [LinearOrder F] (A : Arith F) (text query : StringView) (k : Nat),
      Text.rowMetric A (Text.construct text) query = some (scores A text query) ∧
      Search A text query k =
        some ((returned A text query k).map (Text.construct text).lineAt) ∧
      (∀ i ∈ returned A text query k, i < (survivingRows text).length) ∧
      (returned A text query k).Pairwise
        (fun i j => scoreAt A text query j ≤ scoreAt A text query i) ∧
      (∀ i ∈ returned A text query k, ∀ j, j < (survivingRows text).length →
        j ∉ returned A text query k → scoreAt A text query j ≤ scoreAt A text query i)) ∧
    Search realArith "cat dog\ncat cat\ndog dog dog".toList "cat".toList 2 =
      some ["cat cat".toList, "cat dog".toList] ∧
    (∀ (F : Type) [LinearOrder F] (A : Arith F),
      scoreAt A "cat dog\ncat cat\ndog dog dog".toList "cat".toList 0 <
        scoreAt A "cat dog\ncat cat\ndog dog dog".toList "cat".toList 1 →
      A.ofNat 0 < scoreAt A "cat dog\ncat cat\ndog dog dog".toList "cat".toList 0 →
      scoreAt A "cat dog\ncat cat\ndog dog dog".toList "cat".toList 2 = A.ofNat 0 →
      Search A "cat dog\ncat cat\ndog dog dog".toList "cat".toList 2 =
        some ["cat cat".toList, "cat dog".toList]) := by
  have hex : ∀ (F : Type) [LinearOrder F] (A : Arith F),
      scoreAt A "cat dog\ncat cat\ndog dog dog".toList "cat".toList 0 <
        scoreAt A "cat dog\ncat cat\ndog dog dog".toList "cat".toList 1 →
      A.ofNat 0 < scoreAt A "cat dog\ncat cat\ndog dog dog".toList "cat".toList 0 →
      scoreAt A "cat dog\ncat cat\ndog dog dog".toList "cat".toList 2 = A.ofNat 0 →
      Search A "cat dog\ncat cat\ndog dog dog".toList "cat".toList 2 =
        some ["cat cat".toList, "cat dog".toList] := by
    intro F _ A h01 hz h2
    rw [Search_returned, catdog_returned A 2 (le_refl 2) h01 hz h2]
    simp only [List.map_cons, List.map_nil, catdog_lines.2.1, catdog_lines.2.2.1]
  refine ⟨?_, ?_, hex⟩
  · intro F _ A text query k
    refine ⟨rowMetric_scores A text query, Search_returned A text query k, ?_, ?_, ?_⟩
    · intro i hi
      exact answerIdx_lt A _ _ k i hi
    · exact answerIdx_descending A _ _ k
    · intro i hi j hj hnj
      exact answerIdx_top A _ _ k i j hi hj hnj
  · exact hex ℝ realArith catdog_real_scores.1 catdog_real_scores.2.1 catdog_real_scores.2.2

/-- C2: ties keep the order of the text.  If the surviving lines at positions
`i < j` have equal scores and the later one is selected, then the earlier one is
selected too and is pushed before it; so of two equally scored lines the earlier
comes first in the result, and if only one of them is returned it is the earlier
one.  (The scores need not be non-zero for this.) -/
theorem C2_ties_keep_text_order {F : Type} [LinearOrder F] (A : Arith F)
    (text query : StringView) (k i j : Nat) (hij : i < j)
    (hj : j < (survivingRows text).length)
    (heq : scoreAt A text query i = scoreAt A text query j) :
    Search A text query k =
        some ((returned A text query k).map (Text.construct text).lineAt) ∧
      (returned A text query k).Nodup ∧
      (j ∈ returned A text query k →
        i ∈ returned A text query k ∧ [i, j].Sublist (returned A text query k)) := by
  refine ⟨Search_returned A text query k, answerIdx_nodup A _ _ k, ?_⟩
  intro hjm
  have h := answerIdx_stable A (scores A text query) _ k i j hij hj (le_of_eq heq.symm) hjm
  exact ⟨h.subset (by simp), h⟩

/-- C3: no line whose score is exactly `0` is returned: every selected position
has a non-zero score, and the text of a surviving line of score `0` does not occur
in the result at all (not even as the text of another line).  The result may then
be shorter than the bound: in the example scenario with bound `3` it has the two
lines of non-zero score. -/
theorem C3_zero_score_never_returned :
    (∀ (F : Type) [LinearOrder F] (A : Arith F) (text query : StringView) (k : Nat),
      (∀ i ∈ returned A text query k, scoreAt A text query i ≠ A.ofNat 0) ∧
      ∃ res, Search A text query k = some res ∧
        ∀ i, i < (survivingRows text).length → scoreAt A text query i = A.ofNat 0 →
          (Text.construct text).lineAt i ∉ res) ∧
    Search realArith "cat dog\ncat cat\ndog dog dog".toList "cat".toList 3 =
      some ["cat cat".toList, "cat dog".toList] := by
  constructor
  · intro F _ A text query k
    refine ⟨fun i hi => answerIdx_ne_zero A _ _ k i hi, _, Search_returned A text query k, ?_⟩
    intro i hi hz hmem
    obtain ⟨i', hi', hl⟩ := List.mem_map.mp hmem
    have hlt := answerIdx_lt A _ _ k i' hi'
    have hne := answerIdx_ne_zero A _ _ k i' hi'
    have hc := scoreAt_congr A text query i' i hlt hi hl
    unfold scoreAt at hc hz
    rw [hc] at hne
    exact hne hz
  · rw [Search_returned, catdog_returned realArith 3 (by omega) catdog_real_scores.1
      catdog_real_scores.2.1 catdog_real_scores.2.2]
    simp only [List.map_cons, List.map_nil, catdog_lines.2.1, catdog_lines.2.2.1]

/-- C4: the number of lines returned is `min(results_count, P)` with `P` the number
of surviving lines of strictly positive score; when `results_count` is at least `P`
the selected positions are exactly the positions of positive score, each once.
The arithmetic is assumed to satisfy the sign laws `Arith.NonNeg`. -/
theorem C4_result_count {F : Type} [LinearOrder F] (A : Arith F) (hA : A.NonNeg)
    (text query : StringView) (k : Nat) :
    ∃ res, Search A text query k = some res ∧
      res = (returned A text query k).map (Text.construct text).lineAt ∧
      res.length = min k (positiveCount A text query) ∧
      (returned A text query k).Nodup ∧
      (positiveCount A text query ≤ k → ∀ i, i ∈ returned A text query k ↔
        (i < (survivingRows text).length ∧ A.ofNat 0 < scoreAt A text query i)) := by
  refine ⟨_, Search_returned A text query k, rfl, ?_, answerIdx_nodup A _ _ k, ?_⟩
  · rw [List.length_map, returned_length A hA]
  · intro hk i
    exact mem_returned_of_le A hA text query k hk i

/-- C5: with `results_count = 0` the result is the empty sequence, for every text
and query. -/
theorem C5_zero_results_count {F : Type} [LinearOrder F] (A : Arith F)
    (text query : StringView) : Search A text query 0 = some [] := by
  rw [Search_returned]
  simp [returned, Text.answerIdx]

theorem C2_ties_keep_text_order_witness :
    (0 < 1 ∧ 1 < (survivingRows "a b\na c\nd".toList).length ∧
      scoreAt realArith "a b\na c\nd".toList "a".toList 0 =
        scoreAt realArith "a b\na c\nd".toList "a".toList 1) ∧
    (Search realArith "a b\na c\nd".toList "a".toList 2 =
        some ((returned realArith "a b\na c\nd".toList "a".toList 2).map
          (Text.construct "a b\na c\nd".toList).lineAt) ∧
      (returned realArith "a b\na c\nd".toList "a".toList 2).Nodup ∧
      (1 ∈ returned realArith "a b\na c\nd".toList "a".toList 2 →
        0 ∈ returned realArith "a b\na c\nd".toList "a".toList 2 ∧
          [0, 1].Sublist (returned realArith "a b\na c\nd".toList "a".toList 2))) :=
  ⟨⟨by decide, by decide, by rfl⟩,
    C2_ties_keep_text_order realArith "a b\na c\nd".toList "a".toList 2 0 1 (by decide)
      (by decide) (by rfl)⟩

theorem C4_result_count_witness :
    ∃ res, Search realArith "cat dog\ncat cat\ndog dog dog".toList "cat".toList 5 = some res ∧
      res = (returned realArith "cat dog\ncat cat\ndog dog dog".toList "cat".toList 5).map
        (Text.construct "cat dog\ncat cat\ndog dog dog".toList).lineAt ∧
      res.length = min 5 (positiveCount realArith "cat dog\ncat cat\ndog dog dog".toList "cat".toList) ∧
      (returned realArith "cat dog\ncat cat\ndog dog dog".toList "cat".toList 5).Nodup ∧
      (positiveCount realArith "cat dog\ncat cat\ndog dog dog".toList "cat".toList ≤ 5 →
        ∀ i, i ∈ returned realArith "cat dog\ncat cat\ndog dog dog".toList "cat".toList 5 ↔
          (i < (survivingRows "cat dog\ncat cat\ndog dog dog".toList).length ∧
            realArith.ofNat 0 < scoreAt realArith "cat dog\ncat cat\ndog dog dog".toList "cat".toList i)) :=
  C4_result_count realArith realArith_nonNeg "cat dog\ncat cat\ndog dog dog".toList "cat".toList 5

/-! ## Claims on matching, term statistics and returned lines -/

theorem termCount_congr (words : List StringView) {w w' : StringView}
    (h : lowerKey w = lowerKey w') : termCount words w = termCount words w' := by
  unfold termCount; rw [h]

theorem hasTerm_congr (words : List StringView) {w w' : StringView}
    (h : lowerKey w = lowerKey w') : hasTerm words w = hasTerm words w' := by
  unfold hasTerm; rw [h]

theorem docFreq_congr (rows : List Row) {w w' : StringView}
    (h : lowerKey w = lowerKey w') : docFreq rows w = docFreq rows w' := by
  unfold docFreq
  congr 1
  funext r
  exact hasTerm_congr r.words_ h

theorem queryWords_single (query w : StringView)
    (h : SplitTextWithPredicate query isalpha = [w]) : Text.queryWords query = [w] := by
  unfold Text.queryWords
  rw [h]
  rfl

theorem scores_single_congr {F : Type} (A : Arith F) (text query query' w w' : StringView)
    (h : lowerKey w = lowerKey w') (hq : SplitTextWithPredicate query isalpha = [w])
    (hq' : SplitTextWithPredicate query' isalpha = [w']) :
    scores A text query = scores A text query' := by
  unfold scores Text.presentTerms
  rw [queryWords_single query w hq, queryWords_single query' w' hq']
  apply List.map_congr_left
  intro r _
  have hd := docFreq_congr (survivingRows text) h
  by_cases hz : docFreq (survivingRows text) w = 0
  · have hz' : docFreq (survivingRows text) w' = 0 := hd ▸ hz
    simp [List.filter_cons, hz, hz']
  · have hz' : ¬ docFreq (survivingRows text) w' = 0 := hd ▸ hz
    simp only [List.filter_cons, ne_eq, hz, hz', not_false_eq_true, decide_True, if_true,
      List.filter_nil, specScore, List.foldl_cons, List.foldl_nil, specTf, specIdf]
    rw [termCount_congr r.words_ h, hd]

/-- C6: query terms are matched case-insensitively.  For two terms that are equal
after lower-casing every character, `CalculateTf` of every row, and `IsInText` and
`CalculateIdf` of every document, return the same value; hence two queries that
consist of one token each, equal up to letter case, give the same result of
`Search` for every text and bound. -/
theorem C6_case_insensitive_matching {F : Type} [LinearOrder F] (A : Arith F)
    (w w' : StringView) (h : lowerKey w = lowerKey w') :
    (∀ r : Row, r.CalculateTf A w = r.CalculateTf A w') ∧
      (∀ t : Text, t.IsInText w = t.IsInText w' ∧ t.CalculateIdf A w = t.CalculateIdf A w') ∧
      (∀ (text query query' : StringView) (k : Nat),
        SplitTextWithPredicate query isalpha = [w] →
        SplitTextWithPredicate query' isalpha = [w'] →
        Search A text query k = Search A text query' k) := by
  refine ⟨?_, ?_, ?_⟩
  · intro r
    unfold Row.CalculateTf
    rw [contains_congr r.words_counter_ h, atKey_congr r.words_counter_ h]
  · intro t
    constructor
    · exact contains_congr t.words_counter_ h
    · unfold Text.CalculateIdf
      rw [atKey_congr t.words_counter_ h]
  · intro text query query' k hq hq'
    rw [Search_returned, Search_returned]
    unfold returned
    rw [scores_single_congr A text query query' w w' h hq hq']

theorem C6_case_insensitive_matching_witness :
    lowerKey "DATA".toList = lowerKey "data".toList ∧
      ((∀ r : Row, r.CalculateTf realArith "DATA".toList = r.CalculateTf realArith "data".toList) ∧
      (∀ t : Text, t.IsInText "DATA".toList = t.IsInText "data".toList ∧
        t.CalculateIdf realArith "DATA".toList = t.CalculateIdf realArith "data".toList) ∧
      (∀ (text query query' : StringView) (k : Nat),
        SplitTextWithPredicate query isalpha = ["DATA".toList] →
        SplitTextWithPredicate query' isalpha = ["data".toList] →
        Search realArith text query k = Search realArith text query' k)) :=
  ⟨by decide, C6_case_insensitive_matching realArith "DATA".toList "data".toList (by decide)⟩

/-- C8: term frequency.  For every line and term, with `c` the number of the
line's tokens equal to the term case-insensitively and `n` the number of all its
tokens (repeats counted), `CalculateTf` returns `0` when `c = 0` and the quotient
of `c` by `n` otherwise; over the real numbers this is exactly `c / n`.  In the
line `"cat Cat dog"` the term `"CAT"` has frequency `2 / 3`. -/
theorem C8_term_frequency :
    (∀ (F : Type) (A : Arith F) (line term : StringView),
      (Row.construct line).words_ = SplitTextWithPredicate line isalpha ∧
      (termCount (SplitTextWithPredicate line isalpha) term = 0 →
        (Row.construct line).CalculateTf A term = some (A.ofNat 0)) ∧
      (termCount (SplitTextWithPredicate line isalpha) term ≠ 0 →
        (Row.construct line).CalculateTf A term =
          some (A.div (A.ofNat (termCount (SplitTextWithPredicate line isalpha) term))
            (A.ofNat (SplitTextWithPredicate line isalpha).length)))) ∧
    (∀ line term : StringView,
      (Row.construct line).CalculateTf realArith term =
        some ((termCount (SplitTextWithPredicate line isalpha) term : ℝ) /
          ((SplitTextWithPredicate line isalpha).length : ℝ))) ∧
    (Row.construct "cat Cat dog".toList).CalculateTf realArith "CAT".toList =
      some ((2 : ℝ) / 3) := by
  have key : ∀ line term : StringView,
      (Row.construct line).CalculateTf realArith term =
        some ((termCount (SplitTextWithPredicate line isalpha) term : ℝ) /
          ((SplitTextWithPredicate line isalpha).length : ℝ)) := by
    intro line term
    rw [CalculateTf_construct]
    show some (specTf realArith (SplitTextWithPredicate line isalpha) term) = _
    unfold specTf
    by_cases hc : termCount (SplitTextWithPredicate line isalpha) term = 0
    · simp [hc, realArith]
    · simp [hc, realArith]
  refine ⟨?_, key, ?_⟩
  · intro F A line term
    refine ⟨rfl, ?_, ?_⟩
    · intro hc
      rw [CalculateTf_construct]
      show some (specTf A (SplitTextWithPredicate line isalpha) term) = _
      simp [specTf, hc]
    · intro hc
      rw [CalculateTf_construct]
      show some (specTf A (SplitTextWithPredicate line isalpha) term) = _
      simp [specTf, hc]
  · rw [key]
    have h1 : termCount (SplitTextWithPredicate "cat Cat dog".toList isalpha) "CAT".toList = 2 := by
      decide
    have h2 : (SplitTextWithPredicate "cat Cat dog".toList isalpha).length = 3 := by decide
    rw [h1, h2]
    norm_num

theorem atKey_of_mem {V : Type} (m : CIMap V) (hm : KeysSorted m) (e : StringView × V)
    (he : e ∈ m) : CIMap.atKey m e.1 = some e.2 := by
  induction m with
  | nil => cases he
  | cons e0 m ih =>
    unfold KeysSorted at hm ih
    rw [List.pairwise_cons] at hm
    rw [atKey_cons]
    rcases List.mem_cons.mp he with h | h
    · subst h; simp
    · have hlt := hm.1 e h
      rw [if_neg (ne_of_lt hlt), ih hm.2 h]

theorem hasTerm_eq_false_iff (words : List StringView) (term : StringView) :
    hasTerm words term = false ↔ ∀ w ∈ words, lowerKey w ≠ lowerKey term := by
  unfold hasTerm
  rw [List.any_eq_false]
  simp

theorem docFreq_eq_zero_iff (rows : List Row) (term : StringView) :
    docFreq rows term = 0 ↔ ∀ r ∈ rows, ∀ w ∈ r.words_, lowerKey w ≠ lowerKey term := by
  unfold docFreq
  rw [List.countP_eq_zero]
  constructor
  · intro h r hr
    have := h r hr
    exact (hasTerm_eq_false_iff _ _).mp (by simpa using this)
  · intro h r hr
    have := (hasTerm_eq_false_iff _ _).mpr (h r hr)
    simp [this]

/-- C9: document frequency.  After construction the counter of the document maps
a term to the number of surviving lines that have at least one token equal to it
case-insensitively, and has no entry when that number is `0`; every stored count is
positive; and `IsInText` is false exactly when the term occurs in no surviving
line.  A line with the term several times and in several case variants counts
once. -/
theorem C9_document_frequency :
    (∀ text term : StringView,
      (Text.construct text).words_counter_.atKey term =
        (if docFreq (survivingRows text) term = 0 then none
          else some (docFreq (survivingRows text) term)) ∧
      (∀ v, (Text.construct text).words_counter_.atKey term = some v → 0 < v) ∧
      (∀ e ∈ (Text.construct text).words_counter_,
        e.2 = docFreq (survivingRows text) e.1 ∧ 0 < e.2) ∧
      ((Text.construct text).IsInText term = false ↔
        ∀ r ∈ survivingRows text, ∀ w ∈ r.words_, lowerKey w ≠ lowerKey term)) ∧
    (Text.construct "cat Cat CAT cat\ndog".toList).words_counter_.atKey "cAt".toList =
      some 1 := by
  constructor
  · intro text term
    have hw := construct_wellFormed text
    have hat : ∀ k v, (Text.construct text).words_counter_.atKey k = some v →
        v = docFreq (survivingRows text) k ∧ 0 < v := by
      intro k v hv
      rw [hw.2 k] at hv
      by_cases hz : docFreq (Text.construct text).rows_ k = 0
      · simp [hz] at hv
      · simp only [hz, if_false, Option.some.injEq] at hv
        subst hv
        exact ⟨rfl, Nat.pos_of_ne_zero hz⟩
    refine ⟨hw.2 term, fun v hv => (hat term v hv).2, ?_, ?_⟩
    · intro e he
      exact hat e.1 e.2 (atKey_of_mem _ hw.1 e he)
    · rw [IsInText_eq _ hw, ← docFreq_eq_zero_iff]
      unfold survivingRows
      simp
  · decide

/-- C10: every element of the result is the content of one line of the text,
unchanged: a non-empty contiguous segment of the text without a newline, bounded on
each side by a newline or an end of the text, and it has an alphabetic character. -/
theorem C10_result_lines_verbatim {F : Type} [LinearOrder F] (A : Arith F)
    (text query : StringView) (k : Nat) :
    ∃ res, Search A text query k = some res ∧
      ∀ line ∈ res, IsMaximalRun (fun sym => sym != '\n') text line ∧
        ∃ c ∈ line, isalpha c = true := by
  refine ⟨_, Search_returned A text query k, ?_⟩
  intro line hline
  obtain ⟨i, hi, rfl⟩ := List.mem_map.mp hline
  have hlt : i < (survivingRows text).length := answerIdx_lt A _ _ k i hi
  rw [lineAt_eq text i hlt]
  obtain ⟨_, h2, h3⟩ := row_of_survivingRows text _ (List.getElem_mem hlt)
  refine ⟨Split_maximal _ text _ h2, ?_⟩
  simpa using h3

/-! ## Lines without alphabetic characters -/

theorem Split_eq_takeWhile (p : Char → Bool) (l : List Char) :
    SplitTextWithPredicate l p =
      (if l.takeWhile p = [] then [] else [l.takeWhile p]) ++
        SplitTextWithPredicate (l.dropWhile p) p := by
  cases l with
  | nil => simp [Split_nil]
  | cons c cs =>
    by_cases h : p c = true
    · rw [Split_cons]
      simp [h, List.takeWhile_cons, List.dropWhile_cons]
    · simp [h, List.takeWhile_cons, List.dropWhile_cons]

theorem splitOnP_shape (p : Char → Bool) (l : List Char) :
    ∃ tl, l.splitOnP (fun c => !p c) = l.takeWhile p :: tl ∧
      tl.filter (fun s => decide (s ≠ [])) = SplitTextWithPredicate (l.dropWhile p) p := by
  induction l with
  | nil => exact ⟨[], by simp [List.splitOnP_nil], by simp [Split_nil]⟩
  | cons c cs ih =>
    obtain ⟨tl, h1, h2⟩ := ih
    rw [List.splitOnP_cons]
    by_cases h : p c = true
    · refine ⟨tl, ?_, ?_⟩
      · simp [h, h1, List.takeWhile_cons, List.modifyHead]
      · simp only [List.dropWhile_cons, h, if_true]
        exact h2
    · refine ⟨cs.splitOnP (fun c => !p c), ?_, ?_⟩
      · simp [h, List.takeWhile_cons]
      · have hd : (c :: cs).dropWhile p = c :: cs := by simp [List.dropWhile_cons, h]
        rw [hd, Split_cons, if_neg h, h1, List.filter_cons, Split_eq_takeWhile p cs, h2]
        by_cases ht : cs.takeWhile p = [] <;> simp [ht]

/-- The tokenizer returns the non-empty pieces between rejected characters. -/
theorem Split_eq_splitOnP (p : Char → Bool) (l : List Char) :
    SplitTextWithPredicate l p =
      (l.splitOnP (fun c => !p c)).filter (fun s => decide (s ≠ [])) := by
  obtain ⟨tl, h1, h2⟩ := splitOnP_shape p l
  rw [h1, List.filter_cons, h2, Split_eq_takeWhile p l]
  by_cases ht : l.takeWhile p = [] <;> simp [ht]

theorem Split_newline_eq_splitOn (text : StringView) :
    SplitTextWithPredicate text (fun sym => sym != '\n') =
      (text.splitOn '\n').filter (fun s => decide (s ≠ [])) := by
  rw [Split_eq_splitOnP]
  have : (fun c : Char => !(fun sym => sym != '\n') c) = (fun c => c == '\n') := by
    funext c
    exact Bool.not_not _
  rw [this]
  rfl

theorem not_mem_of_mem_splitOnP (q : Char → Bool) (l : List Char) :
    ∀ s ∈ l.splitOnP q, ∀ c ∈ s, q c = false := by
  induction l with
  | nil => intro s hs c hc; simp [List.splitOnP_nil] at hs; subst hs; cases hc
  | cons x xs ih =>
    intro s hs c hc
    rw [List.splitOnP_cons] at hs
    by_cases hx : q x = true
    · simp only [hx, if_true, List.mem_cons] at hs
      rcases hs with h | h
      · subst h; cases hc
      · exact ih s h c hc
    · simp only [hx, Bool.false_eq_true, if_false] at hs
      cases hsp : xs.splitOnP q with
      | nil => rw [hsp] at hs; simp [List.modifyHead] at hs
      | cons y ys =>
        rw [hsp] at hs ih
        simp only [List.modifyHead, List.mem_cons] at hs
        rcases hs with h | h
        · subst h
          rcases List.mem_cons.mp hc with h' | h'
          · subst h'; simpa using hx
          · exact ih y (List.mem_cons_self _ _) c h'
        · exact ih s (List.mem_cons_of_mem _ h) c hc

theorem Split_deleteNonAlphaLines (text : StringView) :
    SplitTextWithPredicate (deleteNonAlphaLines text) (fun sym => sym != '\n') =
      (SplitTextWithPredicate text (fun sym => sym != '\n')).filter fun l => l.any isalpha := by
  have hne : ∀ l : List Char, l.any isalpha = true → decide (l ≠ []) = true := by
    intro l hl
    cases l with
    | nil => simp at hl
    | cons c cs => simp
  have hff : ∀ L : List (List Char),
      (L.filter fun l => l.any isalpha).filter (fun s => decide (s ≠ [])) =
        L.filter fun l => l.any isalpha := by
    intro L
    rw [List.filter_eq_self]
    intro l hl
    exact hne l (List.mem_filter.mp hl).2
  have hrhs : (SplitTextWithPredicate text (fun sym => sym != '\n')).filter
      (fun l => l.any isalpha) = (text.splitOn '\n').filter fun l => l.any isalpha := by
    rw [Split_newline_eq_splitOn, List.filter_filter]
    apply List.filter_congr
    intro l _
    by_cases hl : l.any isalpha = true
    · rw [hl, hne l hl]; rfl
    · simp only [Bool.not_eq_true] at hl; rw [hl]; rfl
  rw [hrhs, Split_newline_eq_splitOn]
  unfold deleteNonAlphaLines
  by_cases hnil : ((text.splitOn '\n').filter fun l => l.any isalpha) = []
  · rw [hnil]
    simp [List.intercalate, List.splitOn, List.splitOnP_nil]
  · have hx : ∀ l ∈ (text.splitOn '\n').filter (fun l => l.any isalpha), '\n' ∉ l := by
      intro l hl
      have hmem := (List.mem_filter.mp hl).1
      intro hc
      have := not_mem_of_mem_splitOnP (fun c => c == '\n') text l hmem '\n' hc
      simp at this
    rw [List.splitOn_intercalate _ '\n' hx hnil, hff]

theorem addRow_of_no_alpha (t : Text) (l : StringView) (h : l.any isalpha = false) :
    t.addRow l = t := by
  unfold Text.addRow
  rw [IsEmpty_construct, h]
  rfl

theorem foldl_addRow_filter (ls : List StringView) (t : Text) :
    ls.foldl Text.addRow t = (ls.filter fun l => l.any isalpha).foldl Text.addRow t := by
  induction ls generalizing t with
  | nil => rfl
  | cons l ls ih =>
    by_cases h : l.any isalpha = true
    · rw [List.filter_cons, if_pos h, List.foldl_cons, List.foldl_cons, ih]
    · have h' : l.any isalpha = false := by simpa using h
      rw [List.filter_cons, if_neg h, List.foldl_cons, addRow_of_no_alpha t l h', ih]

theorem construct_deleteNonAlphaLines (text : StringView) :
    Text.construct (deleteNonAlphaLines text) = Text.construct text := by
  unfold Text.construct
  rw [Split_deleteNonAlphaLines, ← foldl_addRow_filter]

/-- C7: a line without an alphabetic character never appears in the result and
does not influence it.  Every returned line has an alphabetic character; the
document built from the text with all such lines deleted is the same document (same
rows, same document frequencies, hence same line count and inverse document
frequencies); and `Search` gives the same result on both texts. -/
theorem C7_non_alphabetic_lines_ignored :
    (∀ (F : Type) [LinearOrder F] (A : Arith F) (text query : StringView) (k : Nat),
      ∃ res, Search A text query k = some res ∧ ∀ line ∈ res, line.any isalpha = true) ∧
    (∀ text : StringView, Text.construct (deleteNonAlphaLines text) = Text.construct text) ∧
    (∀ (F : Type) [LinearOrder F] (A : Arith F) (text query : StringView) (k : Nat),
      Search A (deleteNonAlphaLines text) query k = Search A text query k) := by
  refine ⟨?_, construct_deleteNonAlphaLines, ?_⟩
  · intro F _ A text query k
    refine ⟨_, Search_returned A text query k, ?_⟩
    intro line hline
    obtain ⟨i, hi, rfl⟩ := List.mem_map.mp hline
    have hlt : i < (survivingRows text).length := answerIdx_lt A _ _ k i hi
    rw [lineAt_eq text i hlt]
    exact (row_of_survivingRows text _ (List.getElem_mem hlt)).2.2
  · intro F _ A text query k
    unfold Search
    rw [construct_deleteNonAlphaLines]

/-! ## Claims on the comparator, the bound and the query -/

theorem lowerKey_eq_iff (a b : StringView) :
    lowerKey a = lowerKey b ↔
      a.length = b.length ∧
        ∀ (i : Nat) (ha : i < a.length) (hb : i < b.length), tolower a[i] = tolower b[i] := by
  unfold lowerKey
  constructor
  · intro h
    have hlen : a.length = b.length := by
      have := congrArg List.length h
      simpa using this
    refine ⟨hlen, ?_⟩
    intro i ha hb
    have h1 : (a.map tolower)[i]? = (b.map tolower)[i]? := by rw [h]
    rw [List.getElem?_map, List.getElem?_map, List.getElem?_eq_getElem ha,
      List.getElem?_eq_getElem hb] at h1
    simpa using h1
  · rintro ⟨hlen, h⟩
    apply List.ext_getElem
    · simp [hlen]
    · intro i h1 h2
      rw [List.getElem_map, List.getElem_map]
      exact h i (by simpa using h1) (by simpa using h2)

/-- C20: the comparator is a strict weak ordering: it is irreflexive and
transitive and its incomparability relation is transitive.  Two views are
equivalent (neither is smaller) exactly when they have the same length and equal
lower-cased characters at every position, that is when their case-folded spellings
are equal.  So a map ordered by it is keyed by the case-folded spelling: lookups
with equivalent keys give the same answer, the keys stored in the counter of a row
and of a document have pairwise different case-folded spellings, and the count
stored for a term is the count of its whole equivalence class. -/
theorem C20_comparator_strict_weak_order :
    (∀ a, CompareCaseInsensitive a a = false) ∧
    (∀ a b c, CompareCaseInsensitive a b = true → CompareCaseInsensitive b c = true →
      CompareCaseInsensitive a c = true) ∧
    (∀ a b c, keyEquiv a b = true → keyEquiv b c = true → keyEquiv a c = true) ∧
    (∀ a b, keyEquiv a b = true ↔
      (a.length = b.length ∧
        ∀ (i : Nat) (ha : i < a.length) (hb : i < b.length), tolower a[i] = tolower b[i])) ∧
    (∀ a b, keyEquiv a b = true ↔ lowerKey a = lowerKey b) ∧
    (∀ (V : Type) (m : CIMap V) (a b : StringView), keyEquiv a b = true →
      m.atKey a = m.atKey b ∧ m.contains a = m.contains b) ∧
    (∀ line : StringView,
      (Row.construct line).words_counter_.Pairwise (fun e₁ e₂ => lowerKey e₁.1 ≠ lowerKey e₂.1) ∧
      ∀ term, (Row.construct line).words_counter_.atKey term =
        if termCount (SplitTextWithPredicate line isalpha) term = 0 then none
        else some (termCount (SplitTextWithPredicate line isalpha) term)) ∧
    (∀ text : StringView,
      (Text.construct text).words_counter_.Pairwise
        (fun e₁ e₂ => lowerKey e₁.1 ≠ lowerKey e₂.1) ∧
      ∀ term, (Text.construct text).words_counter_.atKey term =
        if docFreq (survivingRows text) term = 0 then none
        else some (docFreq (survivingRows text) term)) := by
  refine ⟨?_, ?_, ?_, ?_, keyEquiv_iff, ?_, ?_, ?_⟩
  · intro a
    cases h : CompareCaseInsensitive a a with
    | false => rfl
    | true => exact absurd ((CompareCaseInsensitive_iff a a).mp h) (lt_irrefl _)
  · intro a b c h1 h2
    exact (CompareCaseInsensitive_iff a c).mpr
      (lt_trans ((CompareCaseInsensitive_iff a b).mp h1) ((CompareCaseInsensitive_iff b c).mp h2))
  · intro a b c h1 h2
    exact (keyEquiv_iff a c).mpr (((keyEquiv_iff a b).mp h1).trans ((keyEquiv_iff b c).mp h2))
  · intro a b
    rw [keyEquiv_iff, lowerKey_eq_iff]
  · intro V m a b h
    have h' := (keyEquiv_iff a b).mp h
    exact ⟨atKey_congr m h', contains_congr m h'⟩
  · intro line
    refine ⟨(Row_counter_sorted line).imp (fun h => ne_of_lt h), ?_⟩
    intro term
    exact Row_atKey line term
  · intro text
    refine ⟨(construct_wellFormed text).1.imp (fun h => ne_of_lt h), ?_⟩
    intro term
    exact (construct_wellFormed text).2 term

section
variable {F : Type} [LinearOrder F]

theorem returned_eq_take (A : Arith F) (text query : StringView) (k : Nat) :
    returned A text query k =
      ((Text.rowsOrder A (scores A text query) (survivingRows text).length).takeWhile
        fun idx => decide (Text.metricAt A (scores A text query) idx ≠ A.ofNat 0)).take
          (min k (survivingRows text).length) := by
  unfold returned Text.answerIdx
  rw [List.take_takeWhile]

/-- C19: `Search` is monotone in the bound: the result for `k + 1` is the result
for `k` followed by at most one more line. -/
theorem C19_monotone_in_results_count (A : Arith F) (text query : StringView) (k : Nat) :
    ∃ res extra, Search A text query k = some res ∧
      Search A text query (k + 1) = some (res ++ extra) ∧ extra.length ≤ 1 := by
  have hmin : min (k + 1) (survivingRows text).length = min k (survivingRows text).length ∨
      min (k + 1) (survivingRows text).length = min k (survivingRows text).length + 1 := by
    omega
  have hstep : ∃ more : List Nat,
      returned A text query (k + 1) = returned A text query k ++ more ∧ more.length ≤ 1 := by
    rw [returned_eq_take A text query k, returned_eq_take A text query (k + 1)]
    rcases hmin with h | h
    · exact ⟨[], by rw [h, List.append_nil], by simp⟩
    · rw [h, List.take_succ]
      refine ⟨_, rfl, ?_⟩
      cases ((Text.rowsOrder A (scores A text query) (survivingRows text).length).takeWhile
        fun idx => decide (Text.metricAt A (scores A text query) idx ≠ A.ofNat 0))[min k
          (survivingRows text).length]? <;> simp
  obtain ⟨more, hmore, hlen⟩ := hstep
  refine ⟨_, more.map (Text.construct text).lineAt, Search_returned A text query k, ?_, ?_⟩
  · rw [Search_returned, hmore, List.map_append]
  · rw [List.length_map]; exact hlen

end

/-! ## The deduplicated query words -/

theorem mem_of_mem_uniqueFrom (last : StringView) (l : List StringView) (w : StringView)
    (h : w ∈ uniqueFrom last l) : w ∈ l := by
  induction l generalizing last with
  | nil => cases h
  | cons x xs ih =>
    simp only [uniqueFrom] at h
    split at h
    · exact List.mem_cons_of_mem _ (ih last h)
    · rcases List.mem_cons.mp h with h | h
      · exact h ▸ List.mem_cons_self _ _
      · exact List.mem_cons_of_mem _ (ih x h)

theorem mem_uniqueFrom_of_mem (last : StringView) (l : List StringView) (w : StringView)
    (h : w ∈ l) : w = last ∨ w ∈ uniqueFrom last l := by
  induction l generalizing last with
  | nil => cases h
  | cons x xs ih =>
    simp only [uniqueFrom]
    rcases List.mem_cons.mp h with h | h
    · by_cases hx : last = x
      · exact Or.inl (h.trans hx.symm)
      · rw [if_neg hx]; exact Or.inr (h ▸ List.mem_cons_self _ _)
    · by_cases hx : last = x
      · rw [if_pos hx]; exact ih last h
      · rw [if_neg hx]
        rcases ih x h with h' | h'
        · exact Or.inr (h' ▸ List.mem_cons_self _ _)
        · exact Or.inr (List.mem_cons_of_mem _ h')

theorem mem_unique (l : List StringView) (w : StringView) : w ∈ unique l ↔ w ∈ l := by
  cases l with
  | nil => simp [unique]
  | cons x xs =>
    simp only [unique, List.mem_cons]
    constructor
    · rintro (h | h)
      · exact Or.inl h
      · exact Or.inr (mem_of_mem_uniqueFrom x xs w h)
    · rintro (h | h)
      · exact Or.inl h
      · exact (mem_uniqueFrom_of_mem x xs w h)

theorem uniqueFrom_sorted (last : StringView) (l : List StringView)
    (hl : ∀ x ∈ l, last ≤ x) (hs : l.Pairwise (· ≤ ·)) :
    (uniqueFrom last l).Pairwise (· < ·) ∧ ∀ x ∈ uniqueFrom last l, last < x := by
  induction l generalizing last with
  | nil => exact ⟨List.Pairwise.nil, fun x hx => by cases hx⟩
  | cons w ws ih =>
    rw [List.pairwise_cons] at hs
    simp only [uniqueFrom]
    by_cases hw : last = w
    · rw [if_pos hw]
      exact ih last (fun x hx => hl x (List.mem_cons_of_mem _ hx)) hs.2
    · rw [if_neg hw]
      have hlt : last < w := lt_of_le_of_ne (hl w (List.mem_cons_self _ _)) hw
      obtain ⟨h1, h2⟩ := ih w hs.1 hs.2
      refine ⟨List.pairwise_cons.mpr ⟨h2, h1⟩, ?_⟩
      intro x hx
      rcases List.mem_cons.mp hx with h | h
      · rw [h]; exact hlt
      · exact lt_trans hlt (h2 x h)

theorem unique_strictly_sorted (l : List StringView) (hs : l.Pairwise (· ≤ ·)) :
    (unique l).Pairwise (· < ·) := by
  cases l with
  | nil => exact List.Pairwise.nil
  | cons x xs =>
    rw [List.pairwise_cons] at hs
    obtain ⟨h1, h2⟩ := uniqueFrom_sorted x xs hs.1 hs.2
    exact List.pairwise_cons.mpr ⟨h2, h1⟩

theorem sortWords_sorted (l : List StringView) : (sortWords l).Pairwise (· ≤ ·) :=
  List.sorted_insertionSort (· ≤ ·) l

theorem mem_sortWords (l : List StringView) (w : StringView) : w ∈ sortWords l ↔ w ∈ l :=
  (List.perm_insertionSort (· ≤ ·) l).mem_iff

/-- The deduplicated query words are strictly increasing. -/
theorem queryWords_sorted (query : StringView) : (Text.queryWords query).Pairwise (· < ·) :=
  unique_strictly_sorted _ (sortWords_sorted _)

/-- The deduplicated query words are the tokens of the query. -/
theorem mem_queryWords (query w : StringView) :
    w ∈ Text.queryWords query ↔ w ∈ SplitTextWithPredicate query isalpha := by
  unfold Text.queryWords
  rw [mem_unique, mem_sortWords]

/-- The deduplicated query words depend on the set of tokens only. -/
theorem queryWords_congr (query query' : StringView)
    (h : ∀ w, w ∈ SplitTextWithPredicate query isalpha ↔
      w ∈ SplitTextWithPredicate query' isalpha) :
    Text.queryWords query = Text.queryWords query' := by
  have s1 := queryWords_sorted query
  have s2 := queryWords_sorted query'
  have n1 : (Text.queryWords query).Nodup := s1.imp (fun h => ne_of_lt h)
  have n2 : (Text.queryWords query').Nodup := s2.imp (fun h => ne_of_lt h)
  have hp : (Text.queryWords query).Perm (Text.queryWords query') := by
    rw [List.perm_ext_iff_of_nodup n1 n2]
    intro w
    rw [mem_queryWords, mem_queryWords, h]
  exact List.eq_of_perm_of_sorted hp s1 s2

theorem Search_congr_queryWords {F : Type} [LinearOrder F] (A : Arith F)
    (text query query' : StringView) (k : Nat)
    (h : Text.queryWords query = Text.queryWords query') :
    Search A text query k = Search A text query' k := by
  unfold Search Text.GetMostRelevant Text.rowMetric
  rw [h]

/-- C18: the result depends on the query only through its set of distinct
alphabetic tokens (distinct as character sequences).  Two queries with the same set
of tokens have the same deduplicated query words and give the same result; this
covers token sequences that are permutations of each other, that differ by
repeated tokens, or that are equal (queries differing in separators only). -/
theorem C18_query_as_token_set {F : Type} [LinearOrder F] (A : Arith F)
    (text query query' : StringView) (k : Nat)
    (h : ∀ w, w ∈ SplitTextWithPredicate query isalpha ↔
      w ∈ SplitTextWithPredicate query' isalpha) :
    Text.queryWords query = Text.queryWords query' ∧
      Search A text query k = Search A text query' k :=
  ⟨queryWords_congr query query' h,
    Search_congr_queryWords A text query query' k (queryWords_congr query query' h)⟩

theorem C18_query_as_token_set_witness :
    (∀ w, w ∈ SplitTextWithPredicate "dog cat, dog!".toList isalpha ↔
      w ∈ SplitTextWithPredicate "cat  cat dog".toList isalpha) ∧
    (Text.queryWords "dog cat, dog!".toList = Text.queryWords "cat  cat dog".toList ∧
      Search realArith "cat dog\ncat cat\ndog dog dog".toList "dog cat, dog!".toList 2 =
        Search realArith "cat dog\ncat cat\ndog dog dog".toList "cat  cat dog".toList 2) :=
  have h : ∀ w, w ∈ SplitTextWithPredicate "dog cat, dog!".toList isalpha ↔
      w ∈ SplitTextWithPredicate "cat  cat dog".toList isalpha := by
    intro w
    have h1 : SplitTextWithPredicate "dog cat, dog!".toList isalpha =
        ["dog".toList, "cat".toList, "dog".toList] := by decide
    have h2 : SplitTextWithPredicate "cat  cat dog".toList isalpha =
        ["cat".toList, "cat".toList, "dog".toList] := by decide
    rw [h1, h2]
    simp only [List.mem_cons, List.mem_singleton, List.not_mem_nil, or_false]
    tauto
  ⟨h, C18_query_as_token_set realArith "cat dog\ncat cat\ndog dog dog".toList
    "dog cat, dog!".toList "cat  cat dog".toList 2 h⟩

/-! ## Queries that score nothing, and case variants in the query -/

theorem answerIdx_nil_of_zero {F : Type} [LinearOrder F] (A : Arith F) (m : List F) (n k : Nat)
    (h : ∀ i, Text.metricAt A m i = A.ofNat 0) : Text.answerIdx A m n k = [] := by
  unfold Text.answerIdx
  cases hl : (Text.rowsOrder A m n).take (min k n) with
  | nil => rfl
  | cons a l =>
    rw [List.takeWhile_cons]
    simp [h a]

theorem scoreAt_of_not_lt {F : Type} (A : Arith F) (text query : StringView) (i : Nat)
    (hi : ¬ i < (survivingRows text).length) : scoreAt A text query i = A.ofNat 0 := by
  unfold scoreAt Text.metricAt
  rw [List.getD_eq_getElem?_getD, List.getElem?_eq_none]
  · rfl
  · unfold scores; rw [List.length_map]; omega

theorem scoreAt_of_lt_or_zero {F : Type} (A : Arith F) (text query : StringView) (i : Nat) :
    (∃ hi : i < (survivingRows text).length,
      scoreAt A text query i =
        specScore A (survivingRows text) (Text.presentTerms (survivingRows text) query)
          ((survivingRows text)[i])) ∨
      scoreAt A text query i = A.ofNat 0 := by
  by_cases hi : i < (survivingRows text).length
  · exact Or.inl ⟨hi, scoreAt_eq A text query i hi⟩
  · exact Or.inr (scoreAt_of_not_lt A text query i hi)

theorem Search_nil_of_scores_zero {F : Type} [LinearOrder F] (A : Arith F)
    (text query : StringView) (k : Nat) (h : ∀ i, scoreAt A text query i = A.ofNat 0) :
    Search A text query k = some [] := by
  rw [Search_returned]
  unfold returned
  rw [answerIdx_nil_of_zero A _ _ k h]
  rfl

theorem presentTerms_eq_nil (text query : StringView)
    (h : ∀ w ∈ SplitTextWithPredicate query isalpha, docFreq (survivingRows text) w = 0) :
    Text.presentTerms (survivingRows text) query = [] := by
  unfold Text.presentTerms
  rw [List.filter_eq_nil_iff]
  intro w hw
  have := h w ((mem_queryWords query w).mp hw)
  simp [this]

theorem survivingRows_eq_nil_of_no_alpha (text : StringView)
    (h : ∀ c ∈ text, isalpha c = false) : survivingRows text = [] := by
  rw [survivingRows_eq, List.map_eq_nil_iff, List.filter_eq_nil_iff]
  intro l hl
  obtain ⟨before, after, h1, _, _, _, _⟩ := Split_maximal _ text l hl
  have hall : l.any isalpha = false := by
    rw [List.any_eq_false]
    intro c hc
    have : c ∈ text := by rw [h1]; simp [hc]
    simp [h c this]
  simp [hall]

/-- C12: a query without a recognized term, or a document without lines, gives the
empty result for every bound.  The query has no recognized term when none of its
alphabetic tokens (if it has any) occurs case-insensitively in a surviving line;
the document has no lines when no character of the text is alphabetic. -/
theorem C12_unrecognized_query_or_empty_document :
    (∀ (F : Type) [LinearOrder F] (A : Arith F) (text query : StringView) (k : Nat),
      (∀ w ∈ SplitTextWithPredicate query isalpha, ∀ r ∈ survivingRows text,
        ∀ token ∈ r.words_, lowerKey token ≠ lowerKey w) →
      Search A text query k = some []) ∧
    (∀ (F : Type) [LinearOrder F] (A : Arith F) (text query : StringView) (k : Nat),
      SplitTextWithPredicate query isalpha = [] → Search A text query k = some []) ∧
    (∀ (F : Type) [LinearOrder F] (A : Arith F) (text query : StringView) (k : Nat),
      (∀ c ∈ text, isalpha c = false) →
      survivingRows text = [] ∧ Search A text query k = some []) ∧
    (∀ (F : Type) [LinearOrder F] (A : Arith F) (query : StringView) (k : Nat),
      Search A [] query k = some []) := by
  have h1 : ∀ (F : Type) [LinearOrder F] (A : Arith F) (text query : StringView) (k : Nat),
      (∀ w ∈ SplitTextWithPredicate query isalpha, ∀ r ∈ survivingRows text,
        ∀ token ∈ r.words_, lowerKey token ≠ lowerKey w) →
      Search A text query k = some [] := by
    intro F _ A text query k h
    apply Search_nil_of_scores_zero
    intro i
    rcases scoreAt_of_lt_or_zero A text query i with ⟨hi, hs⟩ | hs
    · rw [hs, presentTerms_eq_nil text query
        (fun w hw => (docFreq_eq_zero_iff _ _).mpr (h w hw))]
      rfl
    · exact hs
  have h3 : ∀ (F : Type) [LinearOrder F] (A : Arith F) (text query : StringView) (k : Nat),
      (∀ c ∈ text, isalpha c = false) →
      survivingRows text = [] ∧ Search A text query k = some [] := by
    intro F _ A text query k h
    have hnil := survivingRows_eq_nil_of_no_alpha text h
    refine ⟨hnil, ?_⟩
    apply h1
    intro w _ r hr
    rw [hnil] at hr
    cases hr
  refine ⟨h1, ?_, h3, ?_⟩
  · intro F _ A text query k hq
    apply h1
    intro w hw
    rw [hq] at hw
    cases hw
  · intro F _ A query k
    exact (h3 F A [] query k (fun c hc => by cases hc)).2

theorem queryWords_examples :
    Text.queryWords "Cat cat".toList = ["Cat".toList, "cat".toList] ∧
      Text.queryWords "cat cat".toList = ["cat".toList] ∧
      Text.queryWords "cat".toList = ["cat".toList] := by
  refine ⟨by decide, by decide, by decide⟩

theorem scoreAt_Cat_cat {F : Type} (A : Arith F) (hz : ∀ x : F, A.add (A.ofNat 0) x = x)
    (text : StringView) (i : Nat) :
    scoreAt A text "Cat cat".toList i =
      A.add (scoreAt A text "cat".toList i) (scoreAt A text "cat".toList i) := by
  have hk : lowerKey "Cat".toList = lowerKey "cat".toList := by decide
  by_cases hi : i < (survivingRows text).length
  · rw [scoreAt_eq A text "Cat cat".toList i hi, scoreAt_eq A text "cat".toList i hi]
    unfold Text.presentTerms
    rw [queryWords_examples.1, queryWords_examples.2.2]
    have hd := docFreq_congr (survivingRows text) hk
    by_cases hzero : docFreq (survivingRows text) "cat".toList = 0
    · have hzero' : docFreq (survivingRows text) "Cat".toList = 0 := hd ▸ hzero
      simp only [List.filter_cons, ne_eq, hzero, hzero', not_true_eq_false, decide_False,
        Bool.false_eq_true, if_false, List.filter_nil, specScore, List.foldl_nil]
      exact (hz _).symm
    · have hzero' : ¬ docFreq (survivingRows text) "Cat".toList = 0 := hd ▸ hzero
      simp only [List.filter_cons, ne_eq, hzero, hzero', not_false_eq_true, decide_True,
        if_true, List.filter_nil, specScore, List.foldl_cons, List.foldl_nil, specTf, specIdf]
      rw [termCount_congr _ hk, hd]
      rw [hz]
  · rw [scoreAt_of_not_lt A text _ i hi, scoreAt_of_not_lt A text _ i hi]
    exact (hz _).symm

theorem realArith_zeroLaws : realArith.ZeroLaws where
  zero_add := fun x => by simp [realArith]
  zero_mul := fun x => by simp [realArith]
  mul_zero := fun x => by simp [realArith]
  log_div_self := fun n hn => by
    have h : (n : ℝ) ≠ 0 := by exact_mod_cast (Nat.pos_iff_ne_zero.mp hn)
    simp [realArith, div_self h]

theorem realArith_posLaws : realArith.PosLaws where
  div_pos := fun c n hc hn => by
    simp only [realArith, Nat.cast_zero]
    have h1 : (0 : ℝ) < c := by exact_mod_cast hc
    have h2 : (0 : ℝ) < n := by exact_mod_cast hn
    positivity
  log_pos := fun n d hd hdn => by
    simp only [realArith, Nat.cast_zero]
    apply Real.log_pos
    have h2 : (0 : ℝ) < d := by exact_mod_cast hd
    rw [lt_div_iff₀ h2, one_mul]
    exact_mod_cast hdn
  mul_pos := fun x y hx hy => by
    simp only [realArith, Nat.cast_zero] at hx hy ⊢
    exact mul_pos hx hy
  add_pos_left := fun x y hx hy => by
    simp only [realArith, Nat.cast_zero] at hx hy ⊢
    exact add_pos_of_pos_of_nonneg hx hy
  add_pos_right := fun x y hx hy => by
    simp only [realArith, Nat.cast_zero] at hx hy ⊢
    exact add_pos_of_nonneg_of_pos hx hy

/-- C11: query words are deduplicated by exact equality, so case variants each
contribute their own term.  The query `"Cat cat"` keeps both of its tokens, and the
score of every line under it is the score under `"cat"` added to itself (in every
arithmetic where `0` is neutral on the left of a sum), over the real numbers
exactly twice that score; the exact repetition `"cat cat"` is deduplicated and
gives the scores, and the result, of `"cat"`. -/
theorem C11_case_variants_in_query :
    Text.queryWords "Cat cat".toList = ["Cat".toList, "cat".toList] ∧
    Text.queryWords "cat cat".toList = Text.queryWords "cat".toList ∧
    (∀ (F : Type) (A : Arith F) (text query : StringView),
      Text.rowMetric A (Text.construct text) query = some (scores A text query)) ∧
    (∀ (F : Type) (A : Arith F) (text : StringView) (i : Nat),
      scoreAt A text "cat cat".toList i = scoreAt A text "cat".toList i) ∧
    (∀ (F : Type) [LinearOrder F] (A : Arith F) (text : StringView) (k : Nat),
      Search A text "cat cat".toList k = Search A text "cat".toList k) ∧
    (∀ (F : Type) (A : Arith F), (∀ x : F, A.add (A.ofNat 0) x = x) →
      ∀ (text : StringView) (i : Nat),
        scoreAt A text "Cat cat".toList i =
          A.add (scoreAt A text "cat".toList i) (scoreAt A text "cat".toList i)) ∧
    (∀ (text : StringView) (i : Nat),
      scoreAt realArith text "Cat cat".toList i = 2 * scoreAt realArith text "cat".toList i) := by
  have hq : Text.queryWords "cat cat".toList = Text.queryWords "cat".toList := by
    rw [queryWords_examples.2.1, queryWords_examples.2.2]
  refine ⟨queryWords_examples.1, hq, fun F A text query => rowMetric_scores A text query,
    ?_, ?_, ?_, ?_⟩
  · intro F A text i
    unfold scoreAt scores Text.presentTerms
    rw [hq]
  · intro F _ A text k
    exact Search_congr_queryWords A text _ _ k hq
  · intro F A hz text i
    exact scoreAt_Cat_cat A hz text i
  · intro text i
    rw [scoreAt_Cat_cat realArith realArith_zeroLaws.zero_add text i]
    show scoreAt realArith text "cat".toList i + scoreAt realArith text "cat".toList i = _
    ring

/-! ## Terms that occur in every line -/

theorem docFreq_le (rows : List Row) (term : StringView) : docFreq rows term ≤ rows.length :=
  List.countP_le_length _

theorem docFreq_eq_length_iff (rows : List Row) (term : StringView) :
    docFreq rows term = rows.length ↔ ∀ r ∈ rows, hasTerm r.words_ term = true := by
  unfold docFreq
  rw [List.countP_eq_length]

theorem docFreq_ne_zero_iff (rows : List Row) (term : StringView) :
    docFreq rows term ≠ 0 ↔ ∃ r ∈ rows, hasTerm r.words_ term = true := by
  unfold docFreq
  rw [← Nat.pos_iff_ne_zero, List.countP_pos_iff]

theorem summand_eq_zero {F : Type} (A : Arith F) (hZ : A.ZeroLaws) (rows : List Row)
    (words : List StringView) (term : StringView)
    (h : termCount words term = 0 ∨ (0 < rows.length ∧ docFreq rows term = rows.length)) :
    A.mul (specTf A words term) (specIdf A rows term) = A.ofNat 0 := by
  rcases h with h | ⟨hn, h⟩
  · unfold specTf
    rw [if_pos h, hZ.zero_mul]
  · unfold specIdf
    rw [h, hZ.log_div_self _ hn, hZ.mul_zero]

theorem foldl_score_zero {F : Type} (A : Arith F) (hZ : A.ZeroLaws) (rows : List Row)
    (row : Row) :
    ∀ terms : List StringView,
      (∀ t ∈ terms, A.mul (specTf A row.words_ t) (specIdf A rows t) = A.ofNat 0) →
      terms.foldl
        (fun acc term => A.add acc (A.mul (specTf A row.words_ term) (specIdf A rows term)))
        (A.ofNat 0) = A.ofNat 0 := by
  intro terms
  induction terms with
  | nil => intro _; rfl
  | cons t ts ih =>
    intro h
    rw [List.foldl_cons, h t (List.mem_cons_self _ _), hZ.zero_add]
    exact ih (fun t' ht' => h t' (List.mem_cons_of_mem _ ht'))

theorem mem_presentTerms (rows : List Row) (query t : StringView) :
    t ∈ Text.presentTerms rows query ↔
      t ∈ SplitTextWithPredicate query isalpha ∧ docFreq rows t ≠ 0 := by
  unfold Text.presentTerms
  rw [List.mem_filter, mem_queryWords]
  simp

theorem CalculateIdf_construct {F : Type} (A : Arith F) (text w : StringView)
    (h : docFreq (survivingRows text) w ≠ 0) :
    (Text.construct text).CalculateIdf A w = some (specIdf A (survivingRows text) w) := by
  apply CalculateIdf_eq A _ (construct_wellFormed text)
  rw [IsInText_eq _ (construct_wellFormed text)]
  exact decide_eq_true h

/-- C16: a term that occurs in every surviving line has inverse document
frequency `0` and adds nothing.  In an arithmetic with the zero laws: `CalculateIdf`
of such a term is `0`; if every query token that occurs in the text occurs in every
surviving line, `Search` returns the empty sequence for every bound; in particular
it does so for every query when the text has exactly one surviving line. -/
theorem C16_terms_in_every_line_add_nothing {F : Type} [LinearOrder F] (A : Arith F)
    (hZ : A.ZeroLaws) :
    (∀ text w : StringView, survivingRows text ≠ [] →
      (∀ r ∈ survivingRows text, hasTerm r.words_ w = true) →
      (Text.construct text).CalculateIdf A w = some (A.ofNat 0)) ∧
    (∀ (text query : StringView) (k : Nat),
      (∀ w ∈ SplitTextWithPredicate query isalpha,
        (∃ r ∈ survivingRows text, hasTerm r.words_ w = true) →
        ∀ r ∈ survivingRows text, hasTerm r.words_ w = true) →
      Search A text query k = some []) ∧
    (∀ (text query : StringView) (k : Nat), (survivingRows text).length = 1 →
      Search A text query k = some []) := by
  have h2 : ∀ (text query : StringView) (k : Nat),
      (∀ w ∈ SplitTextWithPredicate query isalpha,
        (∃ r ∈ survivingRows text, hasTerm r.words_ w = true) →
        ∀ r ∈ survivingRows text, hasTerm r.words_ w = true) →
      Search A text query k = some [] := by
    intro text query k h
    apply Search_nil_of_scores_zero
    intro i
    rcases scoreAt_of_lt_or_zero A text query i with ⟨hi, hs⟩ | hs
    · rw [hs]
      unfold specScore
      apply foldl_score_zero A hZ
      intro t ht
      obtain ⟨ht1, ht2⟩ := (mem_presentTerms _ _ _).mp ht
      apply summand_eq_zero A hZ
      right
      exact ⟨by omega, (docFreq_eq_length_iff _ _).mpr
        (h t ht1 ((docFreq_ne_zero_iff _ _).mp ht2))⟩
    · exact hs
  refine ⟨?_, h2, ?_⟩
  · intro text w hne hall
    have hlen : 0 < (survivingRows text).length := List.length_pos.mpr hne
    have hd : docFreq (survivingRows text) w = (survivingRows text).length :=
      (docFreq_eq_length_iff _ _).mpr hall
    rw [CalculateIdf_construct A text w (by omega)]
    unfold specIdf
    rw [hd, hZ.log_div_self _ hlen]
  · intro text query k hone
    apply h2
    intro w _ hex r hr
    obtain ⟨r', hr', hterm⟩ := hex
    obtain ⟨a, ha⟩ := List.length_eq_one.mp hone
    rw [ha] at hr hr'
    rw [List.mem_singleton] at hr hr'
    rw [hr, ← hr']
    exact hterm

theorem C16_terms_in_every_line_add_nothing_witness :
    realArith.ZeroLaws ∧
      (survivingRows "Hello, world".toList).length = 1 ∧
      Search realArith "Hello, world".toList "Hello, world".toList 5 = some [] :=
  ⟨realArith_zeroLaws, by decide,
    (C16_terms_in_every_line_add_nothing realArith realArith_zeroLaws).2.2
      "Hello, world".toList "Hello, world".toList 5 (by decide)⟩

/-! ## Which lines score -/

section
variable {F : Type} [LinearOrder F]

theorem summand_nonneg (A : Arith F) (hA : A.NonNeg) (rows : List Row)
    (words : List StringView) (term : StringView) (h : docFreq rows term ≠ 0) :
    A.ofNat 0 ≤ A.mul (specTf A words term) (specIdf A rows term) :=
  hA.zero_le_mul _ _ (specTf_nonneg A hA _ _) (specIdf_nonneg A hA _ _ h)

theorem summand_pos_iff (A : Arith F) (hZ : A.ZeroLaws) (hP : A.PosLaws) (rows : List Row)
    (words : List StringView) (term : StringView) (h : docFreq rows term ≠ 0) :
    A.ofNat 0 < A.mul (specTf A words term) (specIdf A rows term) ↔
      termCount words term ≠ 0 ∧ docFreq rows term < rows.length := by
  have hle := docFreq_le rows term
  constructor
  · intro hpos
    constructor
    · intro hc
      rw [summand_eq_zero A hZ rows words term (Or.inl hc)] at hpos
      exact lt_irrefl _ hpos
    · by_contra hlt
      have heq : docFreq rows term = rows.length := by omega
      rw [summand_eq_zero A hZ rows words term (Or.inr ⟨by omega, heq⟩)] at hpos
      exact lt_irrefl _ hpos
  · rintro ⟨hc, hlt⟩
    apply hP.mul_pos
    · unfold specTf
      rw [if_neg hc]
      have hlen : termCount words term ≤ words.length := List.countP_le_length _
      exact hP.div_pos _ _ (by omega) (by omega)
    · unfold specIdf
      exact hP.log_pos _ _ (by omega) hlt

theorem foldl_score_pos_iff (A : Arith F) (hA : A.NonNeg) (hZ : A.ZeroLaws) (hP : A.PosLaws)
    (rows : List Row) (row : Row) :
    ∀ (terms : List StringView) (acc : F), (∀ t ∈ terms, docFreq rows t ≠ 0) →
      A.ofNat 0 ≤ acc →
      (A.ofNat 0 < terms.foldl
          (fun acc term => A.add acc (A.mul (specTf A row.words_ term) (specIdf A rows term)))
          acc ↔
        A.ofNat 0 < acc ∨
          ∃ t ∈ terms, A.ofNat 0 < A.mul (specTf A row.words_ t) (specIdf A rows t)) := by
  intro terms
  induction terms with
  | nil => intro acc _ _; simp
  | cons t ts ih =>
    intro acc ht hacc
    have hs := summand_nonneg A hA rows row.words_ t (ht t (List.mem_cons_self _ _))
    have hacc' := hA.zero_le_add _ _ hacc hs
    rw [List.foldl_cons, ih _ (fun t' ht' => ht t' (List.mem_cons_of_mem _ ht')) hacc']
    have hstep : A.ofNat 0 < A.add acc (A.mul (specTf A row.words_ t) (specIdf A rows t)) ↔
        A.ofNat 0 < acc ∨ A.ofNat 0 < A.mul (specTf A row.words_ t) (specIdf A rows t) := by
      constructor
      · intro hpos
        by_contra hcon
        rw [not_or] at hcon
        have e1 : acc = A.ofNat 0 := le_antisymm (not_lt.mp hcon.1) hacc
        have e2 : A.mul (specTf A row.words_ t) (specIdf A rows t) = A.ofNat 0 :=
          le_antisymm (not_lt.mp hcon.2) hs
        rw [e1, e2, hZ.zero_add] at hpos
        exact lt_irrefl _ hpos
      · rintro (h | h)
        · exact hP.add_pos_left _ _ h hs
        · exact hP.add_pos_right _ _ hacc h
    rw [hstep]
    simp only [List.mem_cons, exists_eq_or_imp]
    tauto

/-- A surviving line scores above `0` exactly when it has a query token that is
missing from some surviving line. -/
theorem scoreAt_pos_iff (A : Arith F) (hA : A.NonNeg) (hZ : A.ZeroLaws) (hP : A.PosLaws)
    (text query : StringView) (i : Nat) (hi : i < (survivingRows text).length) :
    A.ofNat 0 < scoreAt A text query i ↔
      ∃ w ∈ SplitTextWithPredicate query isalpha,
        hasTerm ((survivingRows text)[i]).words_ w = true ∧
          ∃ r ∈ survivingRows text, hasTerm r.words_ w = false := by
  rw [scoreAt_eq A text query i hi]
  unfold specScore
  rw [foldl_score_pos_iff A hA hZ hP _ _ _ _
    (fun t ht => ((mem_presentTerms _ _ _).mp ht).2) (le_refl _)]
  have hmiss : ∀ w, (∃ r ∈ survivingRows text, hasTerm r.words_ w = false) ↔
      docFreq (survivingRows text) w < (survivingRows text).length := by
    intro w
    have hle := docFreq_le (survivingRows text) w
    have hiff := docFreq_eq_length_iff (survivingRows text) w
    constructor
    · rintro ⟨r, hr, hf⟩
      by_contra hlt
      have := hiff.mp (by omega) r hr
      rw [hf] at this
      cases this
    · intro hlt
      by_contra hcon
      have hall : ∀ r ∈ survivingRows text, hasTerm r.words_ w = true := by
        intro r hr
        by_contra hf
        exact hcon ⟨r, hr, by simpa using hf⟩
      have := hiff.mpr hall
      omega
  constructor
  · rintro (h | ⟨t, ht, hpos⟩)
    · exact absurd h (lt_irrefl _)
    · obtain ⟨ht1, ht2⟩ := (mem_presentTerms _ _ _).mp ht
      obtain ⟨hc, hlt⟩ := (summand_pos_iff A hZ hP _ _ _ ht2).mp hpos
      exact ⟨t, ht1, (hasTerm_iff_termCount _ _).mpr hc, (hmiss t).mpr hlt⟩
  · rintro ⟨w, hw, hterm, hmissing⟩
    right
    have hd : docFreq (survivingRows text) w ≠ 0 :=
      (docFreq_ne_zero_iff _ _).mpr ⟨_, List.getElem_mem hi, hterm⟩
    exact ⟨w, (mem_presentTerms _ _ _).mpr ⟨hw, hd⟩,
      (summand_pos_iff A hZ hP _ _ _ hd).mpr
        ⟨(hasTerm_iff_termCount _ _).mp hterm, (hmiss w).mp hmissing⟩⟩

/-- C17: with a bound of at least the number of surviving lines, a surviving line
is returned exactly when it has, case-insensitively, a query token that some
surviving line lacks.  Stated for the position `i` of the line among the selected
positions and for its text among the returned texts.  The arithmetic is assumed to
satisfy the sign, zero and strict sign laws. -/
theorem C17_returned_iff_discriminating_token (A : Arith F) (hA : A.NonNeg)
    (hZ : A.ZeroLaws) (hP : A.PosLaws) (text query : StringView) (k i : Nat)
    (hk : (survivingRows text).length ≤ k) (hi : i < (survivingRows text).length) :
    (i ∈ returned A text query k ↔
      ∃ w ∈ SplitTextWithPredicate query isalpha,
        hasTerm ((survivingRows text)[i]).words_ w = true ∧
          ∃ r ∈ survivingRows text, hasTerm r.words_ w = false) ∧
    ∃ res, Search A text query k = some res ∧
      ((Text.construct text).lineAt i ∈ res ↔
        ∃ w ∈ SplitTextWithPredicate query isalpha,
          hasTerm ((survivingRows text)[i]).words_ w = true ∧
            ∃ r ∈ survivingRows text, hasTerm r.words_ w = false) := by
  have hPk : positiveCount A text query ≤ k := le_trans (positiveCount_le A text query) hk
  have hmem : ∀ j, j ∈ returned A text query k ↔
      (j < (survivingRows text).length ∧ A.ofNat 0 < scoreAt A text query j) :=
    mem_returned_of_le A hA text query k hPk
  have h1 : i ∈ returned A text query k ↔
      ∃ w ∈ SplitTextWithPredicate query isalpha,
        hasTerm ((survivingRows text)[i]).words_ w = true ∧
          ∃ r ∈ survivingRows text, hasTerm r.words_ w = false := by
    rw [hmem i, ← scoreAt_pos_iff A hA hZ hP text query i hi]
    exact ⟨fun h => h.2, fun h => ⟨hi, h⟩⟩
  refine ⟨h1, _, Search_returned A text query k, ?_⟩
  rw [← h1, List.mem_map]
  constructor
  · rintro ⟨j, hj, hl⟩
    obtain ⟨hjlt, hjpos⟩ := (hmem j).mp hj
    rw [scoreAt_congr A text query j i hjlt hi hl] at hjpos
    exact (hmem i).mpr ⟨hi, hjpos⟩
  · intro h
    exact ⟨i, h, rfl⟩

theorem C17_returned_iff_discriminating_token_witness :
    (realArith.NonNeg ∧ realArith.ZeroLaws ∧ realArith.PosLaws ∧
      (survivingRows "cat dog\ncat cat\ndog dog dog".toList).length ≤ 3 ∧
      0 < (survivingRows "cat dog\ncat cat\ndog dog dog".toList).length) ∧
    (0 ∈ returned realArith "cat dog\ncat cat\ndog dog dog".toList "cat".toList 3 ↔
      ∃ w ∈ SplitTextWithPredicate "cat".toList isalpha,
        ∃ h : 0 < (survivingRows "cat dog\ncat cat\ndog dog dog".toList).length,
          hasTerm ((survivingRows "cat dog\ncat cat\ndog dog dog".toList)[0]).words_ w = true ∧
            ∃ r ∈ survivingRows "cat dog\ncat cat\ndog dog dog".toList,
              hasTerm r.words_ w = false) :=
  ⟨⟨realArith_nonNeg, realArith_zeroLaws, realArith_posLaws, by decide, by decide⟩,
    by
      have h := (C17_returned_iff_discriminating_token realArith realArith_nonNeg
        realArith_zeroLaws realArith_posLaws "cat dog\ncat cat\ndog dog dog".toList
        "cat".toList 3 0 (by decide) (by decide)).1
      rw [h]
      constructor
      · rintro ⟨w, hw, h1, h2⟩
        exact ⟨w, hw, by decide, h1, h2⟩
      · rintro ⟨w, hw, _, h1, h2⟩
        exact ⟨w, hw, h1, h2⟩⟩

/-- C15: every score is non-negative, so the break at the first zero score drops
lines of score exactly `0` only.  In an arithmetic with the sign laws: every stored
document frequency is at most the number of surviving lines, the inverse document
frequency of every term of the document and every summand are non-negative, and so
is every score; the selected positions are the first `results_count` positions of
positive score in sorted order, so a surviving line that is not selected has score
`0` unless the bound was reached. -/
theorem C15_scores_non_negative (A : Arith F) (hA : A.NonNeg) (text query : StringView)
    (k : Nat) :
    (∀ e ∈ (Text.construct text).words_counter_, e.2 ≤ (survivingRows text).length) ∧
    (∀ t, docFreq (survivingRows text) t ≠ 0 →
      (Text.construct text).CalculateIdf A t = some (specIdf A (survivingRows text) t) ∧
      A.ofNat 0 ≤ specIdf A (survivingRows text) t ∧
      ∀ words, A.ofNat 0 ≤ A.mul (specTf A words t) (specIdf A (survivingRows text) t)) ∧
    (∀ i, A.ofNat 0 ≤ scoreAt A text query i) ∧
    returned A text query k =
      ((Text.rowsOrder A (scores A text query) (survivingRows text).length).filter
        fun i => decide (A.ofNat 0 < scoreAt A text query i)).take k ∧
    (∀ i ∈ returned A text query k, A.ofNat 0 < scoreAt A text query i) ∧
    (∀ i, i < (survivingRows text).length → i ∉ returned A text query k →
      scoreAt A text query i = A.ofNat 0 ∨ (returned A text query k).length = k) := by
  have hret := returned_eq_take_filter A hA text query k
  have hflen := length_filter_rowsOrder A text query
  have hPle := positiveCount_le A text query
  refine ⟨?_, ?_, fun i => scoreAt_nonneg A hA text query i, ?_, ?_, ?_⟩
  · intro e he
    have hw := construct_wellFormed text
    have hat := atKey_of_mem _ hw.1 e he
    rw [hw.2 e.1] at hat
    by_cases hz : docFreq (Text.construct text).rows_ e.1 = 0
    · simp [hz] at hat
    · simp only [hz, if_false, Option.some.injEq] at hat
      rw [← hat]
      exact docFreq_le _ _
  · intro t ht
    exact ⟨CalculateIdf_construct A text t ht, specIdf_nonneg A hA _ _ ht,
      fun words => summand_nonneg A hA _ words t ht⟩
  · rw [hret]
    by_cases hkn : k ≤ (survivingRows text).length
    · rw [min_eq_left hkn]
    · rw [min_eq_right (by omega), List.take_of_length_le (by omega),
        List.take_of_length_le (by omega)]
  · intro i hi
    rw [hret] at hi
    have := (List.mem_filter.mp (List.mem_of_mem_take hi)).2
    simpa using this
  · intro i hi hni
    by_cases hz : scoreAt A text query i = A.ofNat 0
    · exact Or.inl hz
    · right
      have hpos : A.ofNat 0 < scoreAt A text query i :=
        lt_of_le_of_ne (scoreAt_nonneg A hA text query i) (Ne.symm hz)
      rw [returned_length A hA]
      by_contra hlen
      have hPk : positiveCount A text query ≤ k := by omega
      exact hni ((mem_returned_of_le A hA text query k hPk i).mpr ⟨hi, hpos⟩)

end

theorem C15_scores_non_negative_witness :
    realArith.NonNeg ∧
      ∀ i, realArith.ofNat 0 ≤
        scoreAt realArith "cat dog\ncat cat\ndog dog dog".toList "cat".toList i :=
  ⟨realArith_nonNeg,
    (C15_scores_non_negative realArith realArith_nonNeg
      "cat dog\ncat cat\ndog dog dog".toList "cat".toList 2).2.2.1⟩

/-! ## The tokenizer returns exactly the maximal runs -/

theorem RunsOf_cons_rejected (p : Char → Bool) (c : Char) (cs : List Char)
    (parts : List (List Char)) (hc : p c = false) (h : RunsOf p cs parts) :
    RunsOf p (c :: cs) parts := by
  cases parts with
  | nil =>
    intro x hx
    rcases List.mem_cons.mp hx with hx | hx
    · rw [hx]; exact hc
    · exact h x hx
  | cons part ps =>
    obtain ⟨gap, rest, h1, h2, h3, h4, h5, h6⟩ := h
    refine ⟨c :: gap, rest, by rw [h1]; rfl, ?_, h3, h4, h5, h6⟩
    intro x hx
    rcases List.mem_cons.mp hx with hx | hx
    · rw [hx]; exact hc
    · exact h2 x hx

theorem Split_runs (p : Char → Bool) (text : List Char) :
    RunsOf p text (SplitTextWithPredicate text p) := by
  induction text using split_induction p with
  | hnil => rw [Split_nil]; intro c hc; cases hc
  | hskip c cs hc ih =>
    rw [Split_cons, if_neg (by simp [hc])]
    exact RunsOf_cons_rejected p c cs _ hc ih
  | hrun c cs hc ih =>
    rw [Split_cons, if_pos hc]
    refine ⟨[], cs.dropWhile p, by simp [List.takeWhile_append_dropWhile], ?_, by simp, ?_,
      fun d hd => head_dropWhile_rejected p cs d hd, ih⟩
    · intro x hx; cases hx
    · intro x hx
      rcases List.mem_cons.mp hx with hx | hx
      · rw [hx]; exact hc
      · exact List.mem_takeWhile_imp hx

theorem Split_append_rejected (p : Char → Bool) (gap l : List Char)
    (h : ∀ c ∈ gap, p c = false) :
    SplitTextWithPredicate (gap ++ l) p = SplitTextWithPredicate l p := by
  induction gap with
  | nil => rfl
  | cons g gs ih =>
    rw [List.cons_append, Split_cons, if_neg (by simp [h g (List.mem_cons_self _ _)])]
    exact ih (fun c hc => h c (List.mem_cons_of_mem _ hc))

theorem takeWhile_dropWhile_append (p : Char → Bool) (xs rest : List Char)
    (hx : ∀ c ∈ xs, p c = true) (hr : ∀ c, rest.head? = some c → p c = false) :
    (xs ++ rest).takeWhile p = xs ∧ (xs ++ rest).dropWhile p = rest := by
  induction xs with
  | nil =>
    cases rest with
    | nil => simp
    | cons r rs =>
      have := hr r rfl
      simp [List.takeWhile_cons, List.dropWhile_cons, this]
  | cons x xs ih =>
    have hxp := hx x (List.mem_cons_self _ _)
    obtain ⟨h1, h2⟩ := ih (fun c hc => hx c (List.mem_cons_of_mem _ hc))
    simp [List.takeWhile_cons, List.dropWhile_cons, hxp, h1, h2]

theorem RunsOf_unique (p : Char → Bool) (parts : List (List Char)) :
    ∀ text, RunsOf p text parts → parts = SplitTextWithPredicate text p := by
  induction parts with
  | nil =>
    intro text h
    exact ((Split_eq_nil_iff p text).mpr h).symm
  | cons part ps ih =>
    intro text h
    obtain ⟨gap, rest, h1, h2, h3, h4, h5, h6⟩ := h
    rw [h1, List.append_assoc, Split_append_rejected p gap _ h2]
    cases part with
    | nil => exact absurd rfl h3
    | cons x xs =>
      obtain ⟨t1, t2⟩ := takeWhile_dropWhile_append p xs rest
        (fun c hc => h4 c (List.mem_cons_of_mem _ hc)) h5
      rw [List.cons_append, Split_cons, if_pos (h4 x (List.mem_cons_self _ _)), t1, t2,
        ← ih rest h6]

theorem Split_flatten (p : Char → Bool) (text : List Char) :
    (SplitTextWithPredicate text p).flatten = text.filter p := by
  induction text using split_induction p with
  | hnil => rfl
  | hskip c cs hc ih =>
    rw [Split_cons, if_neg (by simp [hc]), ih, List.filter_cons, if_neg (by simp [hc])]
  | hrun c cs hc ih =>
    rw [Split_cons, if_pos hc, List.flatten_cons, ih, List.filter_cons, if_pos hc]
    have hcs : cs.filter p = cs.takeWhile p ++ (cs.dropWhile p).filter p := by
      conv_lhs => rw [← List.takeWhile_append_dropWhile p cs]
      rw [List.filter_append]
      congr 1
      rw [List.filter_eq_self]
      intro a ha
      exact List.mem_takeWhile_imp ha
    rw [hcs]
    rfl

/-- C13: the tokenizer returns, in left-to-right order, exactly the maximal runs of
accepted characters.  Every returned view is a non-empty segment of the input made
of accepted characters and bounded on each side by a rejected character or an end
of the input; the returned list is the one and only list of runs of the input in
the sense of `RunsOf`; the concatenation of the views is the input without its
rejected characters; the views are the non-empty pieces between rejected
characters; and the result is empty for the empty input. -/
theorem C13_tokenizer_maximal_runs :
    (∀ (text : List Char) (predicate : Char → Bool),
      (∀ part ∈ SplitTextWithPredicate text predicate, IsMaximalRun predicate text part) ∧
      RunsOf predicate text (SplitTextWithPredicate text predicate) ∧
      (∀ parts, RunsOf predicate text parts → parts = SplitTextWithPredicate text predicate) ∧
      (SplitTextWithPredicate text predicate).flatten = text.filter predicate ∧
      SplitTextWithPredicate text predicate =
        (text.splitOnP (fun c => !predicate c)).filter (fun s => decide (s ≠ []))) ∧
    (∀ predicate : Char → Bool, SplitTextWithPredicate [] predicate = []) ∧
    SplitTextWithPredicate "  ab, c;;de ".toList isalpha =
      ["ab".toList, "c".toList, "de".toList] := by
  refine ⟨?_, fun p => Split_nil p, by decide⟩
  intro text p
  exact ⟨Split_maximal p text, Split_runs p text, fun parts h => RunsOf_unique p parts text h,
    Split_flatten p text, Split_eq_splitOnP p text⟩

/-! ## Safety of the partial operations -/

theorem addWordScores_length {F : Type} (A : Arith F) (t : Text) (qw : StringView) :
    ∀ (rows : List Row) (m m' : List F), m.length = rows.length →
      Text.addWordScores A t qw rows m = some m' → m'.length = rows.length := by
  intro rows
  induction rows with
  | nil =>
    intro m m' _ h
    cases m with
    | nil => simp only [Text.addWordScores, Option.some.injEq] at h; rw [← h]; rfl
    | cons x xs => simp only [Text.addWordScores, Option.some.injEq] at h; rw [← h]; rfl
  | cons r rs ih =>
    intro m m' hlen h
    cases m with
    | nil => simp at hlen
    | cons x xs =>
      simp only [Text.addWordScores] at h
      cases htf : r.CalculateTf A qw with
      | none => rw [htf] at h; simp at h
      | some tf =>
        cases hidf : t.CalculateIdf A qw with
        | none => rw [htf, hidf] at h; simp at h
        | some idf =>
          cases hrest : Text.addWordScores A t qw rs xs with
          | none => rw [htf, hidf, hrest] at h; simp at h
          | some rest =>
            rw [htf, hidf, hrest] at h
            simp only [Option.some_bind, Option.map_some', Option.some.injEq] at h
            rw [← h, List.length_cons, List.length_cons,
              ih xs rest (by simpa using hlen) hrest]

/-- C14: `Search` is total and none of its partial operations can fail.  For every
arithmetic, text, query and bound: `Search` returns a result (no lookup with `at`
and no subscript of the answer loop fails); a term found by `IsInText` has a
document-frequency entry, which is not `0`, so `CalculateIdf` succeeds and does not
divide by zero; every row of the document has a non-zero token count, and a term
found by `contains` has an entry in its counter, so `CalculateTf` succeeds and
does not divide by zero; and the score vector has one entry per row before, during
and after the scoring loops, the sorted positions are below its size, and the
answer loop reads them within their range. -/
theorem C14_total_and_safe {F : Type} [LinearOrder F] (A : Arith F)
    (text query : StringView) (k : Nat) :
    (∃ res, Search A text query k = some res) ∧
    (∀ w, (Text.construct text).IsInText w = true →
      ∃ d, (Text.construct text).words_counter_.atKey w = some d ∧ d ≠ 0 ∧
        (Text.construct text).CalculateIdf A w =
          some (A.log (A.div (A.ofNat (Text.construct text).rows_.length) (A.ofNat d)))) ∧
    (∀ r ∈ (Text.construct text).rows_, r.words_.length ≠ 0 ∧
      ∀ w, (r.words_counter_.contains w = true →
          ∃ c, r.words_counter_.atKey w = some c ∧ c ≠ 0 ∧
            r.CalculateTf A w = some (A.div (A.ofNat c) (A.ofNat r.words_.length))) ∧
        ∃ tf, r.CalculateTf A w = some tf) ∧
    ((List.replicate (Text.construct text).rows_.length (A.ofNat 0)).length =
        (Text.construct text).rows_.length ∧
      ∀ (w : StringView) (m m' : List F), m.length = (Text.construct text).rows_.length →
        Text.addWordScores A (Text.construct text) w (Text.construct text).rows_ m = some m' →
        m'.length = (Text.construct text).rows_.length) ∧
    (∃ row_metric, Text.rowMetric A (Text.construct text) query = some row_metric ∧
      row_metric.length = (Text.construct text).rows_.length ∧
      (∀ idx ∈ iota (Text.construct text).rows_.length, idx < row_metric.length) ∧
      (Text.rowsOrder A row_metric (Text.construct text).rows_.length).length =
        (Text.construct text).rows_.length ∧
      ∀ i, i < min k (Text.construct text).rows_.length →
        ∃ idx, (Text.rowsOrder A row_metric (Text.construct text).rows_.length)[i]? = some idx ∧
          idx < row_metric.length ∧ idx < (Text.construct text).rows_.length) := by
  have hw := construct_wellFormed text
  refine ⟨⟨_, Search_returned A text query k⟩, ?_, ?_,
    ⟨List.length_replicate _ _,
      fun w m m' hm h => addWordScores_length A _ w _ m m' hm h⟩, ?_⟩
  · intro w hin
    have hd : docFreq (Text.construct text).rows_ w ≠ 0 := by
      rw [IsInText_eq _ hw] at hin
      simpa using hin
    refine ⟨docFreq (Text.construct text).rows_ w, ?_, hd, ?_⟩
    · rw [hw.2 w, if_neg hd]
    · rw [CalculateIdf_eq A _ hw w hin]
      rfl
  · intro r hr
    obtain ⟨hrc, _, halpha⟩ := row_of_survivingRows text r hr
    have hne : r.words_.length ≠ 0 := by
      have hemp : r.IsEmpty = false := by
        rw [hrc, IsEmpty_construct, halpha]
        rfl
      unfold Row.IsEmpty at hemp
      intro h0
      rw [List.length_eq_zero.mp h0] at hemp
      cases hemp
    refine ⟨hne, ?_⟩
    intro w
    constructor
    · intro hc
      have hat : r.words_counter_.atKey w =
          if termCount r.words_ w = 0 then none else some (termCount r.words_ w) := by
        rw [hrc]; exact Row_atKey r.row_ w
      have hsome : (r.words_counter_.atKey w).isSome = true := by
        rw [← contains_eq_isSome]; exact hc
      by_cases hz : termCount r.words_ w = 0
      · rw [hat, if_pos hz] at hsome
        cases hsome
      · refine ⟨termCount r.words_ w, by rw [hat, if_neg hz], hz, ?_⟩
        unfold Row.CalculateTf
        rw [hc, hat, if_neg hz]
        rfl
    · exact ⟨_, CalculateTf_of_mem A text r hr w⟩
  · refine ⟨_, rowMetric_scores A text query, ?_, ?_, rowsOrder_length A _ _, ?_⟩
    · unfold scores survivingRows
      rw [List.length_map]
    · intro idx hidx
      unfold scores survivingRows
      rw [List.length_map]
      exact List.mem_range.mp hidx
    · intro i hi
      have hlt : i < (Text.rowsOrder A (scores A text query)
          (Text.construct text).rows_.length).length := by
        rw [rowsOrder_length]; omega
      refine ⟨_, List.getElem?_eq_getElem hlt, ?_, ?_⟩
      · unfold scores survivingRows
        rw [List.length_map]
        exact (mem_rowsOrder A _ _ _).mp (List.getElem_mem hlt)
      · exact (mem_rowsOrder A _ _ _).mp (List.getElem_mem hlt)

end SearchTfIdf
